import Mathlib

/-!
Verification of the content-transformation and commit-lifecycle engine of
`git-selective-ignore` (Rust).  File content and paths are modelled as lists
of characters; the Rust functions from `src/core/engine.rs`,
`src/builders/patterns.rs` and `src/builders/storage.rs` are embedded as
executable Lean functions.  External capabilities (the `regex` crate for
slash-delimited raw regexes, the SipHash-based `calculate_hash`) are
parameters of the development; everything else is translated directly from
the source.
-/

namespace SelIgnore

/-- File content / path: a sequence of characters (Rust `String`). -/
abbrev Str := List Char

/-- The apostrophe character (`'`), written via its code point. -/
def quoteChar : Char := Char.ofNat 39

/-- The backslash character, written via its code point. -/
def backslashChar : Char := Char.ofNat 92

/-- ASCII whitespace as recognised by both Rust `char::is_whitespace` and the
`regex` crate's whitespace class on the ASCII range: space, tab, line feed,
vertical tab, form feed, carriage return. -/
def isRustWs (c : Char) : Bool :=
  c = ' ' || c = '\t' || c = '\n' || c = Char.ofNat 11 || c = Char.ofNat 12 || c = '\r'

/-- Word character for the regex word-boundary semantics on the ASCII range:
letters, digits and underscore. -/
def isWordChar (c : Char) : Bool :=
  c.isAlpha || c.isDigit || c = '_'

/-- Rust `str::trim`: remove whitespace from both ends. -/
def rustTrim (s : Str) : Str :=
  ((s.dropWhile isRustWs).reverse.dropWhile isRustWs).reverse

/-- Digit test used by integer parsing (ASCII `0`-`9`). -/
def isDigitChar (c : Char) : Bool := c.isDigit

/-- Numeric value of a digit list, most significant first. -/
def digitsToNat : Str → Nat → Nat
  | [], acc => acc
  | c :: cs, acc => digitsToNat cs (acc * 10 + (c.toNat - 48))

/-- Rust `usize::from_str` (`"N".parse::<usize>()`): an optional leading `+`,
then one or more ASCII digits; anything else, the empty string, or overflow
past `usize::MAX` is an error (`none`). -/
def rustParseUsize (s : Str) : Option Nat :=
  let t := match s with
           | '+' :: rest => rest
           | _ => s
  if t = [] then none
  else if t.all isDigitChar then
    let v := digitsToNat t 0
    if v ≤ 2 ^ 64 - 1 then some v else none
  else none

/-- Strip a trailing carriage return from a reversed accumulator
(`\r\n` handling of Rust `str::lines`). -/
def stripCrRev (acc : Str) : Str :=
  match acc with
  | '\r' :: rest => rest.reverse
  | _ => acc.reverse

/-- Worker for `rustLines`: `acc` holds the current line reversed. -/
def linesAux (acc : Str) : Str → List Str
  | [] => if acc = [] then [] else [acc.reverse]
  | c :: rest =>
    if c = '\n' then stripCrRev acc :: linesAux [] rest
    else linesAux (c :: acc) rest

/-- Rust `str::lines`: split at `\n`, dropping the terminator and a `\r`
immediately preceding it; a final segment without terminator is kept as is
(a bare trailing `\r` is not stripped), and an empty final segment is not
produced. -/
def rustLines (s : Str) : List Str := linesAux [] s

/-- Join lines with `\n` (Rust `Vec::join("\n")`). -/
def joinNl : List Str → Str
  | [] => []
  | [l] => l
  | l :: rest => l ++ '\n' :: joinNl rest

/-- Whether content ends with a newline (Rust `str::ends_with('\n')`). -/
def endsWithNl (s : Str) : Bool :=
  match s.getLast? with
  | some c => c = '\n'
  | none => false

/-- Substring containment (Rust `str::contains(&str)`). -/
def containsSub (hay pat : Str) : Bool :=
  (List.range (hay.length + 1)).any fun i => pat.isPrefixOf (hay.drop i)

/-- Split on the literal separator `|||` (Rust `str::split("|||")`),
left to right, non-overlapping; `acc` holds the current piece reversed. -/
def splitTripleBarAux : Str → Str → List Str
  | acc, '|' :: '|' :: '|' :: rest => acc.reverse :: splitTripleBarAux [] rest
  | acc, c :: rest => splitTripleBarAux (c :: acc) rest
  | acc, [] => [acc.reverse]

/-- Rust `spec.split("|||").collect::<Vec<_>>()`. -/
def splitTripleBar (s : Str) : List Str := splitTripleBarAux [] s

/-- Rust `spec.split('-').collect::<Vec<_>>()` via `List.splitOn`. -/
def splitDash (s : Str) : List Str := s.splitOn '-'

end SelIgnore

namespace SelIgnore

/-- The four pattern kinds of `src/builders/patterns.rs` (`PatternType`). -/
inductive PatternType
  | lineRegex
  | lineNumber
  | blockStartEnd
  | lineRange
deriving DecidableEq, Repr

/-- `IgnorePattern` of `src/builders/patterns.rs`.  The `compiled_regex`
field of the source is a cached copy of the specification for regex/block
kinds and is never consulted by the matching code, so it is not carried. -/
structure IgnorePattern where
  id : Str
  patternType : PatternType
  specification : Str
deriving DecidableEq, Repr

/-- Whether a `LineRegex` specification is a slash-delimited raw regex
(Rust `spec.starts_with('/') && spec.ends_with('/')`). -/
def slashDelimited (s : Str) : Bool :=
  (s.head? = some '/') && (s.getLast? = some '/')

/-- The raw regex between the slashes
(Rust `&spec[1..spec.len() - 1]`). -/
def innerSlash (s : Str) : Str := (s.drop 1).dropLast

/-- Word character at a position, out of range counting as non-word. -/
def charAtIsWord (line : Str) (i : Nat) : Bool :=
  match line.get? i with
  | some c => isWordChar c
  | none => false

/-- Regex word boundary `\b` at position `i` of `line`. -/
def wordBoundaryAt (line : Str) (i : Nat) : Bool :=
  (if i = 0 then false else charAtIsWord line (i - 1)) != charAtIsWord line i

/-- One attempted match, at start position `i`, of the assignment-detection
regex that `create_line_regex_pattern` builds for a bare identifier:
word boundary, the escaped identifier literally, optional whitespace, `=`,
optional whitespace, then a value in double or single quotes with at least
one character that is not the quote. -/
def matchAssignAt (ident line : Str) (i : Nat) : Bool :=
  wordBoundaryAt line i &&
  ident.isPrefixOf (line.drop i) &&
  (match (line.drop (i + ident.length)).dropWhile isRustWs with
   | '=' :: r2 =>
     (match r2.dropWhile isRustWs with
      | q :: rest =>
        if q = '"' || q = quoteChar then
          let j := rest.findIdx (fun c => c = q)
          decide (1 ≤ j) && decide (j < rest.length)
        else false
      | [] => false)
   | _ => false)

/-- Whole-line `is_match` of the assignment-detection regex: a match may
start at any position. -/
def assignRegexMatch (ident line : Str) : Bool :=
  (List.range (line.length + 1)).any (matchAssignAt ident line)

/-- `IgnorePattern::matches_line`.  `rrm pat line` stands for the external
regex crate's `Regex::new(pat).is_match(line)` for slash-delimited raw
regexes and `rrv pat` for `Regex::new(pat).is_ok()`; a bare identifier is
matched by the embedded assignment-detection semantics.  Errors mirror the
source's `?` propagation (an out-of-bounds `parts[1]` panic for a
separator-free `LineRange` is also modelled as an error). -/
def matchesLineE (rrm : Str → Str → Bool) (rrv : Str → Bool)
    (p : IgnorePattern) (line : Str) (lineNumber : Nat) : Except String Bool :=
  match p.patternType with
  | .lineRegex =>
    if slashDelimited p.specification then
      if rrv (innerSlash p.specification) then
        .ok (rrm (innerSlash p.specification) line)
      else .error "invalid regex"
    else .ok (assignRegexMatch p.specification line)
  | .lineNumber =>
    match rustParseUsize p.specification with
    | some t => .ok (decide (lineNumber = t))
    | none => .error "line number parse"
  | .lineRange =>
    match (splitDash p.specification).get? 0, (splitDash p.specification).get? 1 with
    | some p0, some p1 =>
      match rustParseUsize p0, rustParseUsize p1 with
      | some s, some e => .ok (decide (s ≤ lineNumber) && decide (lineNumber ≤ e))
      | _, _ => .error "line range parse"
    | _, _ => .error "line range parts"
  | .blockStartEnd => .ok false

/-- `IgnorePattern::validate`, as a boolean (`true` = `Ok(())`).  For a bare
identifier the source builds `\b<escaped ident>\b` from an escaped literal,
which always compiles, so that branch always validates. -/
def validate (rrv : Str → Bool) (p : IgnorePattern) : Bool :=
  match p.patternType with
  | .lineRegex =>
    if slashDelimited p.specification then rrv (innerSlash p.specification) else true
  | .lineNumber => (rustParseUsize p.specification).isSome
  | .lineRange =>
    let parts := splitDash p.specification
    decide (parts.length = 2) &&
      (rustParseUsize (parts.getD 0 [])).isSome &&
      (rustParseUsize (parts.getD 1 [])).isSome
  | .blockStartEnd =>
    let parts := splitTripleBar p.specification
    decide (parts.length = 2) &&
      decide (rustTrim (parts.getD 0 []) ≠ []) &&
      decide (rustTrim (parts.getD 1 []) ≠ [])

/-- The scanning loop of `get_block_range`: `off` is the zero-based index of
the first element of the remaining line list inside the full file.  On a
line containing the literal start text, the first subsequent line containing
the literal end text closes the block (1-based inclusive range) and the
cursor jumps past it; with no end in sight the start is skipped. -/
def blockScan (sp ep : Str) : Nat → List Str → List (Nat × Nat)
  | _, [] => []
  | off, l :: rest =>
    if containsSub l sp then
      match rest.findIdx? (fun x => containsSub x ep) with
      | some k => (off + 1, off + k + 2) :: blockScan sp ep (off + k + 2) (rest.drop (k + 1))
      | none => blockScan sp ep (off + 1) rest
    else blockScan sp ep (off + 1) rest
termination_by _ ls => ls.length
decreasing_by
  all_goals simp [List.length_drop]
  omega

/-- `IgnorePattern::get_block_range`. -/
def getBlockRange (p : IgnorePattern) (content : Str) : Except String (List (Nat × Nat)) :=
  match p.patternType with
  | .blockStartEnd =>
    let parts := splitTripleBar p.specification
    if parts.length = 2 then
      .ok (blockScan (rustTrim (parts.getD 0 [])) (rustTrim (parts.getD 1 [])) 0
            (rustLines content))
    else .error "block parts"
  | _ => .ok []

end SelIgnore

namespace SelIgnore

/-- The per-line scanning loop of `process_file_content` step 1 for
`LineRegex` / `LineNumber` / `LineRange` patterns: test every line, with
its 1-based number, against the pattern; collect the zero-based indices of
matching lines; propagate the first matcher error. -/
def collectMatches (f : Str → Nat → Except String Bool) : List Str → Nat → Except String (List Nat)
  | [], _ => .ok []
  | l :: ls, i =>
    match f l (i + 1) with
    | .error e => .error e
    | .ok b =>
      match collectMatches f ls (i + 1) with
      | .error e => .error e
      | .ok rest => .ok (if b then i :: rest else rest)

/-- Zero-based indices a block range `(start, end)` inserts into
`lines_to_ignore`: every 1-based `i` with `start ≤ i ≤ end`, kept only when
`0 < i ≤ lines.len()`, shifted down by one. -/
def blockRangeIdx (lineCount : Nat) (se : Nat × Nat) : List Nat :=
  ((List.range' se.1 (se.2 + 1 - se.1)).filter
    (fun i => decide (0 < i) && decide (i ≤ lineCount))).map (fun i => i - 1)

/-- Indices contributed by one pattern in step 1 of `process_file_content`. -/
def patternIgnoredIdx (rrm : Str → Str → Bool) (rrv : Str → Bool)
    (p : IgnorePattern) (lines : List Str) (content : Str) : Except String (List Nat) :=
  match p.patternType with
  | .blockStartEnd =>
    match getBlockRange p content with
    | .error e => .error e
    | .ok ranges => .ok (ranges.flatMap (blockRangeIdx lines.length))
  | _ => collectMatches (matchesLineE rrm rrv p) lines 0

/-- Union, across the pattern list, of the ignored indices (the key set of
the source's `lines_to_ignore` HashMap). -/
def ignoredIdxAll (rrm : Str → Str → Bool) (rrv : Str → Bool) :
    List IgnorePattern → List Str → Str → Except String (List Nat)
  | [], _, _ => .ok []
  | p :: ps, lines, content =>
    match patternIgnoredIdx rrm rrv p lines content with
    | .error e => .error e
    | .ok idxs =>
      match ignoredIdxAll rrm rrv ps lines content with
      | .error e => .error e
      | .ok rest => .ok (idxs ++ rest)

/-- Step 4 of `process_file_content`: collapse every run of consecutive
whitespace-only lines down to its first line; the flag records whether the
previous kept line was blank. -/
def collapseBlanks : List Str → Bool → List Str
  | [], _ => []
  | l :: ls, prevBlank =>
    if rustTrim l = [] then
      if prevBlank then collapseBlanks ls true else l :: collapseBlanks ls true
    else l :: collapseBlanks ls false

/-- `IgnoreEngine::process_file_content`: returns the cleaned content and
the ignored-line map (index, original line), the latter listed in line
order rather than HashMap iteration order. -/
def processFileContent (rrm : Str → Str → Bool) (rrv : Str → Bool)
    (content : Str) (patterns : List IgnorePattern) :
    Except String (Str × List (Nat × Str)) :=
  let lines := rustLines content
  match ignoredIdxAll rrm rrv patterns lines content with
  | .error e => .error e
  | .ok ignored =>
    let kept := (lines.enum.filter (fun il => !(ignored.contains il.1))).map Prod.snd
    let cleanedLines := collapseBlanks kept false
    let joined := joinNl cleanedLines
    let newContent := if endsWithNl content && !(decide (joined = [])) then joined ++ ['\n'] else joined
    .ok (newContent, lines.enum.filter (fun il => ignored.contains il.1))

/-- `BackupData` of `src/builders/storage.rs`; hash digests are the values
of the abstract `calculate_hash` parameter. -/
structure BackupData where
  original_content : Str
  ignored_lines : List (Nat × Str)
  original_file_hash : Nat
  cleaned_file_hash : Nat
deriving DecidableEq, Repr

/-- Lookup in an association list keyed by strings (a HashMap model). -/
def lookupA {α : Type} (k : Str) : List (Str × α) → Option α
  | [] => none
  | kv :: rest => if kv.1 = k then some kv.2 else lookupA k rest

/-- Remove every entry with the given key (HashMap `remove`). -/
def eraseA {α : Type} (k : Str) (m : List (Str × α)) : List (Str × α) :=
  m.filter (fun kv => decide (kv.1 ≠ k))

/-- Overwrite the entry at a key (HashMap `insert`). -/
def setA {α : Type} (k : Str) (v : α) (m : List (Str × α)) : List (Str × α) :=
  (k, v) :: eraseA k m

/-- `TempFileStorage::get_backup_path`: replace path separators by an
underscore and append `.backup`. -/
def getBackupPath (p : Str) : Str :=
  (p.map (fun c => if c = '/' || c = backslashChar then '_' else c)) ++ ".backup".toList

/-- `TempFileStorage::restore_file_path_from_backup_name`: strip the
`.backup` suffix if present and turn every underscore back into `/`. -/
def restoreFilePathFromBackupName (name : Str) : Str :=
  let stem := if (".backup".toList).isSuffixOf name
              then name.take (name.length - (".backup".toList).length)
              else name
  stem.map (fun c => if c = '_' then '/' else c)

/-- `TempFileStorage::store_backup` on the backup-directory contents
(filename, record). -/
def tempStoreBackup (files : List (Str × BackupData)) (p : Str) (bd : BackupData) :
    List (Str × BackupData) :=
  setA (getBackupPath p) bd files

/-- `TempFileStorage::get_all_backup_keys`: decode every `.backup` filename
in the directory back to a path. -/
def tempGetAllBackupKeys (files : List (Str × BackupData)) : List Str :=
  (files.map Prod.fst).filterMap
    (fun n => if (".backup".toList).isSuffixOf n then some (restoreFilePathFromBackupName n) else none)

end SelIgnore

namespace SelIgnore

/-- The configuration slice the engine consumes: the `files` map and the
`auto_cleanup` global setting. -/
structure Config where
  files : List (Str × List IgnorePattern)
  autoCleanup : Bool

/-- The observable state the engine acts on: the list of staged paths (the
result of the external `get_staged_files` git capability), the index (staged
blobs), the working tree, and the backup store keyed by path. -/
structure EngineState where
  staged : List Str
  index : List (Str × Str)
  workingTree : List (Str × Str)
  storage : List (Str × BackupData)
deriving DecidableEq

/-- Console events of the restore phase: a successful restore line or the
skip warning printed on a hash mismatch. -/
inductive RestoreEvent
  | restored (p : Str)
  | skippedWarning (p : Str)
deriving DecidableEq, Repr

/-- Body of the staged-files loop of `process_pre_commit` for one path:
paths without configured patterns are skipped; otherwise the staged content
is read from the index, transformed, and — only when the transform changed
it — a backup record is stored, the cleaned text written to the working
tree, and the path queued for re-staging. -/
def preCommitStep (rrm : Str → Str → Bool) (rrv : Str → Bool) (hash : Str → Nat)
    (cfg : Config) : EngineState × List Str → Str →
    Except String (EngineState × List Str)
  | (st, toAdd), path =>
    match lookupA path cfg.files with
    | none => .ok (st, toAdd)
    | some patterns =>
      match lookupA path st.index with
      | none => .error "failed to get staged file entry"
      | some original =>
        match processFileContent rrm rrv original patterns with
        | .error e => .error e
        | .ok (cleaned, ignoredMap) =>
          if cleaned ≠ original then
            .ok ({ st with
                     storage := setA path
                       ⟨original, ignoredMap, hash original, hash cleaned⟩ st.storage,
                     workingTree := setA path cleaned st.workingTree },
                  toAdd ++ [path])
          else .ok (st, toAdd)

/-- The staged-files loop of `process_pre_commit`. -/
def preCommitLoop (rrm : Str → Str → Bool) (rrv : Str → Bool) (hash : Str → Nat)
    (cfg : Config) : List Str → (EngineState × List Str) →
    Except String (EngineState × List Str)
  | [], acc => .ok acc
  | p :: ps, acc =>
    match preCommitStep rrm rrv hash cfg acc p with
    | .error e => .error e
    | .ok acc2 => preCommitLoop rrm rrv hash cfg ps acc2

/-- The re-staging loop of `process_pre_commit`: `index.add_path` reads the
(just written) working-tree file back into the index. -/
def restageAll : List Str → EngineState → Except String EngineState
  | [], st => .ok st
  | p :: ps, st =>
    match lookupA p st.workingTree with
    | none => .error "add_path failed"
    | some c => restageAll ps { st with index := setA p c st.index }

/-- `IgnoreEngine::process_pre_commit`. -/
def processPreCommit (rrm : Str → Str → Bool) (rrv : Str → Bool) (hash : Str → Nat)
    (cfg : Config) (st : EngineState) : Except String EngineState :=
  match preCommitLoop rrm rrv hash cfg st.staged (st, []) with
  | .error e => .error e
  | .ok (st1, toAdd) => restageAll toAdd st1

/-- Body of the configured-files loop of `process_post_commit` for one
path: `restore_backup` returns and removes the record; only then is the
current working-tree content read and its hash compared against the stored
`cleaned_file_hash`, restoring on equality and warning otherwise. -/
def postCommitStep (hash : Str → Nat) :
    EngineState × List RestoreEvent → Str →
    Except String (EngineState × List RestoreEvent)
  | (st, evs), path =>
    match lookupA path st.storage with
    | none => .ok (st, evs)
    | some bd =>
      match lookupA path st.workingTree with
      | none => .error "failed to read file"
      | some cur =>
        if hash cur = bd.cleaned_file_hash then
          .ok ({ st with
                   storage := eraseA path st.storage,
                   workingTree := setA path bd.original_content st.workingTree },
                evs ++ [.restored path])
        else .ok ({ st with storage := eraseA path st.storage },
                evs ++ [.skippedWarning path])

/-- The configured-files loop of `process_post_commit`. -/
def postCommitLoop (hash : Str → Nat) : List Str → (EngineState × List RestoreEvent) →
    Except String (EngineState × List RestoreEvent)
  | [], acc => .ok acc
  | p :: ps, acc =>
    match postCommitStep hash acc p with
    | .error e => .error e
    | .ok acc2 => postCommitLoop hash ps acc2

/-- `IgnoreEngine::process_post_commit`: restore every configured path that
holds a record, then discard all remaining records when `auto_cleanup` is
set. -/
def processPostCommit (hash : Str → Nat) (cfg : Config) (st : EngineState) :
    Except String (EngineState × List RestoreEvent) :=
  match postCommitLoop hash (cfg.files.map Prod.fst) (st, []) with
  | .error e => .error e
  | .ok (st1, evs) =>
    .ok (if cfg.autoCleanup then ({ st1 with storage := [] }, evs) else (st1, evs))

end SelIgnore

namespace SelIgnore

lemma findIdxQ_cons {α : Type} (p : α → Bool) (x : α) (xs : List α) :
    (x :: xs).findIdx? p = if p x then some 0 else (xs.findIdx? p).map (· + 1) := by
  simp [List.findIdx?_cons]

lemma findIdxQ_spec {α : Type} {p : α → Bool} :
    ∀ {xs : List α} {k : Nat}, xs.findIdx? p = some k →
    ∃ x, xs[k]? = some x ∧ p x = true ∧
      ∀ j y, j < k → xs[j]? = some y → p y = false := by
  intro xs
  induction xs with
  | nil => intro k h; simp [List.findIdx?] at h
  | cons x xs ih =>
    intro k h
    rw [findIdxQ_cons] at h
    by_cases hx : p x
    · simp [hx] at h
      subst h
      exact ⟨x, by simp, hx, fun j y hj => by omega⟩
    · simp [hx] at h
      obtain ⟨k0, hk0, hk⟩ := h
      obtain ⟨z, hz, hpz, hmin⟩ := ih hk0
      subst hk
      refine ⟨z, by simpa using hz, hpz, ?_⟩
      intro j y hj hy
      cases j with
      | zero =>
        simp at hy
        subst hy
        simpa using hx
      | succ j0 =>
        exact hmin j0 y (by omega) (by simpa using hy)

lemma suffix_backup (m : Str) : (".backup".toList).isSuffixOf (m ++ ".backup".toList) := by
  rw [List.isSuffixOf_iff_suffix]
  exact List.suffix_append m _

/-- Decoding a backup file name undoes the sanitization exactly when the
path contains neither an underscore nor a backslash. -/
lemma decode_encode_of_clean (p : Str)
    (h : ∀ c ∈ p, c ≠ '_' ∧ c ≠ backslashChar) :
    restoreFilePathFromBackupName (getBackupPath p) = p := by
  unfold restoreFilePathFromBackupName getBackupPath
  rw [if_pos (suffix_backup _)]
  have hlen : (p.map (fun c => if c = '/' || c = backslashChar then '_' else c) ++
      ".backup".toList).length - (".backup".toList).length =
      (p.map (fun c => if c = '/' || c = backslashChar then '_' else c)).length := by
    simp
  rw [hlen, List.take_left, List.map_map]
  have : ∀ c ∈ p, ((fun c => if c = '_' then '/' else c) ∘
      fun c => if c = '/' || c = backslashChar then '_' else c) c = id c := by
    intro c hc
    obtain ⟨h1, h2⟩ := h c hc
    by_cases hc2 : c = '/'
    · simp [hc2]
    · simp [hc2, h2, h1]
  rw [List.map_congr_left this, List.map_id]

/-- C8: the claim as stated is false: storing a backup for the path `a_b`
and enumerating the keys yields `a/b`, not `a_b` — the underscore decoding
is not a left inverse of the sanitization for paths containing `_`. -/
theorem C8_cex :
    ¬ ("a_b".toList ∈ tempGetAllBackupKeys
        (tempStoreBackup [] "a_b".toList ⟨[], [], 0, 0⟩)) := by
  decide

/-- C8 (amended): for every path free of underscores and backslashes, the
decoding is a left inverse of the sanitization: after `store_backup(p, r)`
the key enumeration contains `p` itself. -/
theorem C8_thm (files : List (Str × BackupData)) (p : Str) (bd : BackupData)
    (h : ∀ c ∈ p, c ≠ '_' ∧ c ≠ backslashChar) :
    p ∈ tempGetAllBackupKeys (tempStoreBackup files p bd) := by
  apply List.mem_filterMap.mpr
  refine ⟨getBackupPath p, ?_, ?_⟩
  · exact List.mem_map.mpr ⟨(getBackupPath p, bd), List.mem_cons_self _ _, rfl⟩
  · rw [if_pos]
    · rw [decode_encode_of_clean p h]
    · unfold getBackupPath
      exact suffix_backup _

/-- Witness for C8: the hypothesis is satisfiable, e.g. by `dir/a.env`. -/
theorem C8_witness :
    "dir/a.env".toList ∈ tempGetAllBackupKeys
      (tempStoreBackup [] "dir/a.env".toList ⟨[], [], 0, 0⟩) :=
  C8_thm [] "dir/a.env".toList ⟨[], [], 0, 0⟩ (by decide)

end SelIgnore

namespace SelIgnore

lemma validate_lineRange_true {rrv : Str → Bool} {p : IgnorePattern}
    (hk : p.patternType = .lineRange) (hv : validate rrv p = true) :
    (splitDash p.specification).length = 2 ∧
      (rustParseUsize ((splitDash p.specification).getD 0 [])).isSome = true ∧
      (rustParseUsize ((splitDash p.specification).getD 1 [])).isSome = true := by
  unfold validate at hv
  rw [hk] at hv
  simp only [Bool.and_eq_true, decide_eq_true_eq] at hv
  exact ⟨hv.1.1, hv.1.2, hv.2⟩

lemma validate_blockStartEnd_true {rrv : Str → Bool} {p : IgnorePattern}
    (hk : p.patternType = .blockStartEnd) (hv : validate rrv p = true) :
    (splitTripleBar p.specification).length = 2 ∧
      rustTrim ((splitTripleBar p.specification).getD 0 []) ≠ [] ∧
      rustTrim ((splitTripleBar p.specification).getD 1 []) ≠ [] := by
  unfold validate at hv
  rw [hk] at hv
  simp only [Bool.and_eq_true, decide_eq_true_eq] at hv
  exact ⟨hv.1.1, hv.1.2, hv.2⟩

/-- C9: `validate` rejects, for the pattern's kind, an unparsable
slash-delimited regex, a non-integer line number, a malformed range, and a
block specification whose split does not have exactly two parts or whose
parts are blank; moreover an invalid specification never yields a pattern
matching every line: some line/number pair is not matched (for an invalid
specification the matcher in fact errors or rejects). -/
theorem C9_thm (rrm : Str → Str → Bool) (rrv : Str → Bool) (p : IgnorePattern) :
    (p.patternType = .lineRegex → slashDelimited p.specification = true →
      rrv (innerSlash p.specification) = false → validate rrv p = false) ∧
    (p.patternType = .lineNumber → rustParseUsize p.specification = none →
      validate rrv p = false) ∧
    (p.patternType = .lineRange →
      ¬ ((splitDash p.specification).length = 2 ∧
         (rustParseUsize ((splitDash p.specification).getD 0 [])).isSome = true ∧
         (rustParseUsize ((splitDash p.specification).getD 1 [])).isSome = true) →
      validate rrv p = false) ∧
    (p.patternType = .blockStartEnd →
      ¬ ((splitTripleBar p.specification).length = 2 ∧
         rustTrim ((splitTripleBar p.specification).getD 0 []) ≠ [] ∧
         rustTrim ((splitTripleBar p.specification).getD 1 []) ≠ []) →
      validate rrv p = false) ∧
    (validate rrv p = false →
      ∃ l n, matchesLineE rrm rrv p l n ≠ .ok true) := by
  refine ⟨?_, ?_, ?_, ?_, ?_⟩
  · intro hk hs hr
    unfold validate
    rw [hk]
    simp [hs, hr]
  · intro hk hp
    unfold validate
    rw [hk]
    simp [hp]
  · intro hk hbad
    by_contra hne
    exact hbad (validate_lineRange_true hk (eq_true_of_ne_false hne))
  · intro hk hbad
    by_contra hne
    exact hbad (validate_blockStartEnd_true hk (eq_true_of_ne_false hne))
  · intro hval
    cases hk : p.patternType with
    | lineRegex =>
      have hslash : slashDelimited p.specification = true := by
        by_contra hs
        have hs2 : slashDelimited p.specification = false := by
          cases h2 : slashDelimited p.specification
          · rfl
          · exact absurd h2 hs
        unfold validate at hval
        rw [hk, hs2] at hval
        simp at hval
      have hr : rrv (innerSlash p.specification) = false := by
        by_contra hr
        have hr2 := eq_true_of_ne_false (by
          intro hfalse
          exact hr hfalse)
        unfold validate at hval
        rw [hk, hslash] at hval
        simp [hr2] at hval
      refine ⟨[], 0, ?_⟩
      unfold matchesLineE
      rw [hk, hslash, hr]
      simp
    | lineNumber =>
      cases hp : rustParseUsize p.specification with
      | none =>
        refine ⟨[], 0, ?_⟩
        unfold matchesLineE
        rw [hk, hp]
        simp
      | some t =>
        refine ⟨[], t + 1, ?_⟩
        unfold matchesLineE
        rw [hk, hp]
        simp
    | lineRange =>
      cases h0 : (splitDash p.specification).get? 0 with
      | none =>
        refine ⟨[], 0, ?_⟩
        unfold matchesLineE
        rw [hk, h0]
        cases h1 : (splitDash p.specification).get? 1 <;> simp
      | some p0 =>
        cases h1 : (splitDash p.specification).get? 1 with
        | none =>
          refine ⟨[], 0, ?_⟩
          unfold matchesLineE
          rw [hk, h0, h1]
          simp
        | some p1 =>
          cases hp0 : rustParseUsize p0 with
          | none =>
            refine ⟨[], 0, ?_⟩
            unfold matchesLineE
            rw [hk, h0, h1]
            simp [hp0]
          | some s =>
            cases hp1 : rustParseUsize p1 with
            | none =>
              refine ⟨[], 0, ?_⟩
              unfold matchesLineE
              rw [hk, h0, h1]
              simp [hp0, hp1]
            | some e =>
              refine ⟨[], e + 1, ?_⟩
              unfold matchesLineE
              rw [hk, h0, h1]
              simp [hp0, hp1]
    | blockStartEnd =>
      refine ⟨[], 0, ?_⟩
      unfold matchesLineE
      rw [hk]
      simp

/-- Witness for C9, exercising all four rejection branches and the
no-universal-match conclusion on concrete invalid patterns. -/
theorem C9_witness :
    validate (fun _ => true) ⟨[], .lineNumber, "x7".toList⟩ = false ∧
    validate (fun _ => true) ⟨[], .lineRange, "10--20".toList⟩ = false ∧
    validate (fun _ => true) ⟨[], .blockStartEnd, "BEGIN||END".toList⟩ = false ∧
    validate (fun _ => false) ⟨[], .lineRegex, "/(/".toList⟩ = false ∧
    (∃ l n, matchesLineE (fun _ _ => true) (fun _ => true)
      ⟨[], .lineNumber, "x7".toList⟩ l n ≠ .ok true) := by
  refine ⟨?_, ?_, ?_, ?_, ?_⟩
  · exact (C9_thm (fun _ _ => true) (fun _ => true) _).2.1 rfl (by decide)
  · exact (C9_thm (fun _ _ => true) (fun _ => true) _).2.2.1 rfl (by decide)
  · exact (C9_thm (fun _ _ => true) (fun _ => true) _).2.2.2.1 rfl (by decide)
  · exact (C9_thm (fun _ _ => true) (fun _ => false) _).1 rfl (by decide) rfl
  · exact (C9_thm (fun _ _ => true) (fun _ => true) _).2.2.2.2
      ((C9_thm (fun _ _ => true) (fun _ => true) _).2.1 rfl (by decide))

end SelIgnore

namespace SelIgnore

/-- Structural soundness of the block scanner: every returned range lies
past the cursor and inside the line list; its start line contains the start
text, its end line contains the end text, and no line strictly between them
contains the end text (the end is the first subsequent match). -/
lemma blockScan_mem_spec (sp ep : Str) :
    ∀ (off : Nat) (ls : List Str), ∀ se ∈ blockScan sp ep off ls,
      off < se.1 ∧ se.1 < se.2 ∧ se.2 ≤ off + ls.length ∧
      (∃ l, ls[se.1 - off - 1]? = some l ∧ containsSub l sp = true) ∧
      (∃ l, ls[se.2 - off - 1]? = some l ∧ containsSub l ep = true) ∧
      (∀ m l, se.1 < m → m < se.2 → ls[m - off - 1]? = some l →
        containsSub l ep = false) := by
  intro off0 ls0
  induction off0, ls0 using blockScan.induct sp ep with
  | case1 off =>
    intro se hse
    simp [blockScan] at hse
  | case2 off l rest hsp k hk ih =>
    intro se hse
    rw [blockScan, if_pos hsp, hk] at hse
    obtain ⟨x, hx, hpx, hmin⟩ := findIdxQ_spec hk
    have hklen : k < rest.length := (List.getElem?_eq_some.mp hx).1
    rcases List.mem_cons.mp hse with h | h
    · subst h
      refine ⟨by omega, by omega, by simp; omega, ?_, ?_, ?_⟩
      · exact ⟨l, by simp, hsp⟩
      · refine ⟨x, ?_, hpx⟩
        have : off + k + 2 - off - 1 = k + 1 := by omega
        rw [this]
        simpa using hx
      · intro m y hm1 hm2 hy
        have hidx : m - off - 1 = (m - off - 2) + 1 := by omega
        rw [hidx] at hy
        simp at hy
        exact hmin (m - off - 2) y (by omega) hy
    · obtain ⟨ho, hlt, hub, ⟨a, ha, hca⟩, ⟨b, hb, hcb⟩, hmn⟩ := ih se h
      have hdl : (List.drop (k + 1) rest).length = rest.length - (k + 1) := by simp
      refine ⟨by omega, hlt, by simp; omega, ?_, ?_, ?_⟩
      · refine ⟨a, ?_, hca⟩
        rw [List.getElem?_drop] at ha
        have : se.1 - off - 1 = (k + 1 + (se.1 - (off + k + 2) - 1)) + 1 := by omega
        rw [this]
        simpa using ha
      · refine ⟨b, ?_, hcb⟩
        rw [List.getElem?_drop] at hb
        have : se.2 - off - 1 = (k + 1 + (se.2 - (off + k + 2) - 1)) + 1 := by omega
        rw [this]
        simpa using hb
      · intro m y hm1 hm2 hy
        refine hmn m y hm1 hm2 ?_
        rw [List.getElem?_drop]
        have : m - off - 1 = (k + 1 + (m - (off + k + 2) - 1)) + 1 := by omega
        rw [this] at hy
        simpa using hy
  | case3 off l rest hsp hnone ih =>
    intro se hse
    rw [blockScan, if_pos hsp, hnone] at hse
    obtain ⟨ho, hlt, hub, ⟨a, ha, hca⟩, ⟨b, hb, hcb⟩, hmn⟩ := ih se hse
    refine ⟨by omega, hlt, by simp; omega, ?_, ?_, ?_⟩
    · refine ⟨a, ?_, hca⟩
      have : se.1 - off - 1 = (se.1 - (off + 1) - 1) + 1 := by omega
      rw [this]
      simpa using ha
    · refine ⟨b, ?_, hcb⟩
      have : se.2 - off - 1 = (se.2 - (off + 1) - 1) + 1 := by omega
      rw [this]
      simpa using hb
    · intro m y hm1 hm2 hy
      refine hmn m y hm1 hm2 ?_
      have : m - off - 1 = (m - (off + 1) - 1) + 1 := by omega
      rw [this] at hy
      simpa using hy
  | case4 off l rest hsp ih =>
    intro se hse
    rw [blockScan, if_neg hsp] at hse
    obtain ⟨ho, hlt, hub, ⟨a, ha, hca⟩, ⟨b, hb, hcb⟩, hmn⟩ := ih se hse
    refine ⟨by omega, hlt, by simp; omega, ?_, ?_, ?_⟩
    · refine ⟨a, ?_, hca⟩
      have : se.1 - off - 1 = (se.1 - (off + 1) - 1) + 1 := by omega
      rw [this]
      simpa using ha
    · refine ⟨b, ?_, hcb⟩
      have : se.2 - off - 1 = (se.2 - (off + 1) - 1) + 1 := by omega
      rw [this]
      simpa using hb
    · intro m y hm1 hm2 hy
      refine hmn m y hm1 hm2 ?_
      have : m - off - 1 = (m - (off + 1) - 1) + 1 := by omega
      rw [this] at hy
      simpa using hy

/-- Ranges returned by the scanner are disjoint and in order: each block
ends strictly before the next one starts (a start inside a matched block is
never re-examined). -/
lemma blockScan_chain (sp ep : Str) :
    ∀ (off : Nat) (ls : List Str),
      List.Chain' (fun a b : Nat × Nat => a.2 < b.1) (blockScan sp ep off ls) := by
  intro off0 ls0
  induction off0, ls0 using blockScan.induct sp ep with
  | case1 off => simp [blockScan]
  | case2 off l rest hsp k hk ih =>
    rw [blockScan, if_pos hsp, hk]
    refine List.chain'_cons'.mpr ⟨?_, ih⟩
    intro y hy
    have hmem : y ∈ blockScan sp ep (off + k + 2) (rest.drop (k + 1)) :=
      List.mem_of_mem_head? hy
    have := (blockScan_mem_spec sp ep _ _ y hmem).1
    simpa using this
  | case3 off l rest hsp hnone ih =>
    rw [blockScan, if_pos hsp, hnone]
    exact ih
  | case4 off l rest hsp ih =>
    rw [blockScan, if_neg hsp]
    exact ih

end SelIgnore

namespace SelIgnore

/-- C5: block discovery — on the concrete example `BEGIN|||END` applied to
`"a\nBEGIN\nb\nc\nEND\nd"` the single range `(2, 5)` is found and the
cleaned output is `"a\nd"`; and in general every range produced by the
scanner is a 1-based inclusive in-bounds range whose start line contains
the literal start text, whose end line is the first subsequent line
containing the literal end text, and successive ranges are disjoint and in
order (so a start inside a matched block never opens a new block). -/
theorem C5_thm :
    (getBlockRange ⟨[], .blockStartEnd, "BEGIN|||END".toList⟩
        "a\nBEGIN\nb\nc\nEND\nd".toList = .ok [(2, 5)]) ∧
    (∀ rrm rrv, processFileContent rrm rrv "a\nBEGIN\nb\nc\nEND\nd".toList
        [⟨[], .blockStartEnd, "BEGIN|||END".toList⟩] =
      .ok ("a\nd".toList,
        [(1, "BEGIN".toList), (2, "b".toList), (3, "c".toList), (4, "END".toList)])) ∧
    (∀ sp ep : Str, ∀ ls : List Str, ∀ se ∈ blockScan sp ep 0 ls,
      1 ≤ se.1 ∧ se.1 < se.2 ∧ se.2 ≤ ls.length ∧
      (∃ l, ls[se.1 - 1]? = some l ∧ containsSub l sp = true) ∧
      (∃ l, ls[se.2 - 1]? = some l ∧ containsSub l ep = true) ∧
      (∀ m l, se.1 < m → m < se.2 → ls[m - 1]? = some l →
        containsSub l ep = false)) ∧
    (∀ sp ep : Str, ∀ ls : List Str,
      List.Chain' (fun a b : Nat × Nat => a.2 < b.1) (blockScan sp ep 0 ls)) := by
  have hbs2 : blockScan "BEGIN".toList "END".toList 0
      ["a".toList, "BEGIN".toList, "b".toList, "c".toList, "END".toList, "d".toList] =
      [(2, 5)] := by
    simp +decide [blockScan]
  have hb : getBlockRange ⟨[], .blockStartEnd, "BEGIN|||END".toList⟩
      "a\nBEGIN\nb\nc\nEND\nd".toList = .ok [(2, 5)] := by
    have hstep : getBlockRange ⟨[], .blockStartEnd, "BEGIN|||END".toList⟩
        "a\nBEGIN\nb\nc\nEND\nd".toList =
        .ok (blockScan "BEGIN".toList "END".toList 0
          ["a".toList, "BEGIN".toList, "b".toList, "c".toList, "END".toList, "d".toList]) := rfl
    rw [hstep, hbs2]
  refine ⟨hb, fun rrm rrv => ?_, ?_, fun sp ep ls => blockScan_chain sp ep 0 ls⟩
  · unfold processFileContent ignoredIdxAll patternIgnoredIdx
    rw [hb]
    rfl
  intro sp ep ls se hse
  obtain ⟨h1, h2, h3, ⟨a, ha, hca⟩, ⟨b, hb, hcb⟩, hmn⟩ :=
    blockScan_mem_spec sp ep 0 ls se hse
  refine ⟨by omega, h2, by omega, ?_, ?_, ?_⟩
  · refine ⟨a, ?_, hca⟩
    simpa using ha
  · refine ⟨b, ?_, hcb⟩
    simpa using hb
  · intro m l hm1 hm2 hl
    exact hmn m l hm1 hm2 (by simpa using hl)

/-- Witness for C5: the general range properties instantiated on the
concrete example's returned range `(2, 5)`. -/
theorem C5_witness :
    (1 : Nat) ≤ 2 ∧ 2 < 5 ∧ 5 ≤ (rustLines "a\nBEGIN\nb\nc\nEND\nd".toList).length := by
  have hbs : blockScan "BEGIN".toList "END".toList 0
      (rustLines "a\nBEGIN\nb\nc\nEND\nd".toList) = [(2, 5)] := by
    show blockScan "BEGIN".toList "END".toList 0
      ["a".toList, "BEGIN".toList, "b".toList, "c".toList, "END".toList, "d".toList] = [(2, 5)]
    simp +decide [blockScan]
  have h := C5_thm.2.2.1 ("BEGIN".toList) ("END".toList)
    (rustLines "a\nBEGIN\nb\nc\nEND\nd".toList) (2, 5)
    (by rw [hbs]; exact List.mem_singleton.mpr rfl)
  exact ⟨h.1, h.2.1, h.2.2.1⟩

end SelIgnore

namespace SelIgnore

lemma dropWhile_all_cons {p : Char → Bool} :
    ∀ (a : Str) (b : Char) (t : Str), (∀ c ∈ a, p c = true) → p b = false →
    (a ++ b :: t).dropWhile p = b :: t := by
  intro a
  induction a with
  | nil =>
    intro b t _ hb
    simp [List.dropWhile, hb]
  | cons x a ih =>
    intro b t ha hb
    have hx : p x = true := ha x (by simp)
    simp only [List.cons_append, List.dropWhile, hx]
    exact ih b t (fun c hc => ha c (by simp [hc])) hb

lemma findIdx_eq_append {q : Char} :
    ∀ (val post : Str), (∀ c ∈ val, c ≠ q) →
    (val ++ q :: post).findIdx (fun c => decide (c = q)) = val.length := by
  intro val
  induction val with
  | nil =>
    intro post _
    simp [List.findIdx_cons]
  | cons x val ih =>
    intro post hv
    have hx : x ≠ q := hv x (by simp)
    simp only [List.cons_append, List.findIdx_cons, decide_eq_true_eq]
    rw [cond_eq_if]
    simp only [decide_eq_true_eq, if_neg hx]
    rw [ih post (fun c hc => hv c (by simp [hc]))]
    simp

/-- The claim's reading of the bare-identifier `LineRegex` contract: the
line contains a word-boundary-delimited occurrence of the identifier,
followed (up to whitespace) by `=` and a quoted value — a quote character,
one or more non-quote characters, and the closing quote. -/
def AssignMatchSpec (ident ln : Str) : Prop :=
  ∃ (pre ws1 ws2 val post : Str) (q : Char),
    ln = pre ++ (ident ++ (ws1 ++ ('=' :: (ws2 ++ (q :: (val ++ (q :: post))))))) ∧
    (pre = [] ∨ ∃ c, pre.getLast? = some c ∧ isWordChar c = false) ∧
    (∀ c ∈ ws1, isRustWs c = true) ∧
    (∀ c ∈ ws2, isRustWs c = true) ∧
    (q = '"' ∨ q = quoteChar) ∧
    val ≠ [] ∧ (∀ c ∈ val, c ≠ q)

lemma assignRegexMatch_of_spec (ident ln : Str) (hid : ident ≠ [])
    (hw : ∀ c ∈ ident, isWordChar c = true) (h : AssignMatchSpec ident ln) :
    assignRegexMatch ident ln = true := by
  obtain ⟨pre, ws1, ws2, val, post, q, hline, hpre, hws1, hws2, hq, hval, hvq⟩ := h
  have hqws : isRustWs q = false := by
    rcases hq with h | h <;> subst h <;> decide
  have heqws : isRustWs '=' = false := by decide
  obtain ⟨d, ident', hident⟩ : ∃ d ident', ident = d :: ident' := by
    cases ident with
    | nil => exact absurd rfl hid
    | cons d t => exact ⟨d, t, rfl⟩
  apply List.any_eq_true.mpr
  refine ⟨pre.length, List.mem_range.mpr ?_, ?_⟩
  · subst hline
    simp [List.length_append]
    omega
  · have hge : ln[pre.length]? = some d := by
      subst hline
      rw [List.getElem?_append_right (le_refl pre.length)]
      simp [hident]
    have hcw : charAtIsWord ln pre.length = true := by
      unfold charAtIsWord
      rw [List.get?_eq_getElem?, hge]
      exact hw d (by simp [hident])
    have hbefore : (if pre.length = 0 then false
        else charAtIsWord ln (pre.length - 1)) = false := by
      by_cases h0 : pre.length = 0
      · simp [h0]
      · rw [if_neg h0]
        rcases hpre with hnil | ⟨c, hc, hcnw⟩
        · exact absurd (by simp [hnil]) h0
        · unfold charAtIsWord
          have hcc : ln[pre.length - 1]? = some c := by
            subst hline
            rw [List.getElem?_append_left (by omega)]
            rw [List.getLast?_eq_getElem?] at hc
            exact hc
          rw [List.get?_eq_getElem?, hcc]
          exact hcnw
    have hdrop : ln.drop pre.length =
        ident ++ (ws1 ++ ('=' :: (ws2 ++ (q :: (val ++ (q :: post)))))) := by
      subst hline
      exact List.drop_left pre _
    have hdrop2 : ln.drop (pre.length + ident.length) =
        ws1 ++ ('=' :: (ws2 ++ (q :: (val ++ (q :: post))))) := by
      rw [← List.drop_drop, hdrop]
      exact List.drop_left ident _
    have hpref : ident.isPrefixOf (ln.drop pre.length) = true := by
      rw [List.isPrefixOf_iff_prefix, hdrop]
      exact List.prefix_append _ _
    unfold matchAssignAt
    rw [hdrop2]
    rw [dropWhile_all_cons ws1 '=' _ hws1 heqws]
    have hdw2 : (ws2 ++ (q :: (val ++ (q :: post)))).dropWhile isRustWs =
        q :: (val ++ (q :: post)) :=
      dropWhile_all_cons ws2 q _ hws2 hqws
    simp only [hdw2]
    have hqq : (q = '"' || q = quoteChar) = true := by
      rcases hq with h | h <;> simp [h]
    rw [hqq]
    simp only [if_true]
    have hfi : (val ++ (q :: post)).findIdx (fun c => decide (c = q)) = val.length :=
      findIdx_eq_append val post hvq
    simp only [hfi]
    have hvlen : 1 ≤ val.length := by
      cases val with
      | nil => exact absurd rfl hval
      | cons _ _ => simp
    have hvlt : val.length < (val ++ (q :: post)).length := by simp
    simp only [wordBoundaryAt, hbefore, hcw, hpref]
    simp [hvlen, hvlt]

lemma spec_of_assignRegexMatch (ident ln : Str) (hid : ident ≠ [])
    (hw : ∀ c ∈ ident, isWordChar c = true) (h : assignRegexMatch ident ln = true) :
    AssignMatchSpec ident ln := by
  obtain ⟨i, hi, hm⟩ := List.any_eq_true.mp h
  unfold matchAssignAt at hm
  simp only [Bool.and_eq_true] at hm
  obtain ⟨⟨hb, hpref⟩, hrest⟩ := hm
  obtain ⟨tail0, htail0⟩ := List.isPrefixOf_iff_prefix.mp hpref
  have hiLen : i ≤ ln.length := by
    by_contra hgt
    push_neg at hgt
    have hnil : ln.drop i = [] := List.drop_eq_nil_of_le (by omega)
    rw [hnil] at htail0
    rcases List.append_eq_nil.mp htail0 with ⟨h1, _⟩
    exact hid h1
  have htail : ln.drop (i + ident.length) = tail0 := by
    rw [← List.drop_drop, ← htail0]
    exact List.drop_left ident tail0
  set r0 := ln.drop (i + ident.length) with hr0
  rcases hspl1 : r0.dropWhile isRustWs with _ | ⟨c1, r2⟩ <;> rw [hspl1] at hrest
  · simp at hrest
  · split at hrest
    · rename_i r2' heq
      injection heq with hc1 hr2
      subst hc1
      subst hr2
      rcases hspl2 : r2.dropWhile isRustWs with _ | ⟨q, rest⟩ <;> rw [hspl2] at hrest
      · simp at hrest
      · split at hrest
        · rename_i q2 rest2 heq2
          injection heq2 with hq2 hrest2
          subst hq2
          subst hrest2
          split at hrest
          swap
          · simp at hrest
          rename_i hq
          replace hrest : (decide (1 ≤ rest.findIdx fun c => decide (c = q)) &&
              decide ((rest.findIdx fun c => decide (c = q)) < rest.length)) = true := hrest
          simp only [Bool.and_eq_true, decide_eq_true_eq] at hrest
          obtain ⟨hj1, hjlt⟩ := hrest
          set j := rest.findIdx (fun c => decide (c = q)) with hj
          have hrq : rest[j] = q := by
            have := @List.findIdx_getElem _ (fun c => decide (c = q)) rest hjlt
            simpa using this
          have hrdec : rest = rest.take j ++ (q :: rest.drop (j + 1)) := by
            conv_lhs => rw [← List.take_append_drop j rest]
            rw [List.drop_eq_getElem_cons hjlt, hrq]
          have hlnfull : ln = ln.take i ++ (ident ++ (r0.takeWhile isRustWs ++
              ('=' :: (r2.takeWhile isRustWs ++
                (q :: (rest.take j ++ (q :: rest.drop (j + 1)))))))) := by
            conv_lhs => rw [← List.take_append_drop i ln]
            have h1 : ln.drop i = ident ++ r0 := by
              rw [htail]
              exact htail0.symm
            have h2 : r0 = r0.takeWhile isRustWs ++ ('=' :: r2) := by
              conv_lhs => rw [← List.takeWhile_append_dropWhile (p := isRustWs) (l := r0)]
              rw [hspl1]
            have h3 : r2 = r2.takeWhile isRustWs ++
                (q :: (rest.take j ++ (q :: rest.drop (j + 1)))) := by
              conv_lhs => rw [← List.takeWhile_append_dropWhile (p := isRustWs) (l := r2)]
              rw [hspl2, ← hrdec]
            rw [h1]
            conv_lhs => rw [h2]
            conv_lhs => rw [h3]
          have hcw : charAtIsWord ln i = true := by
            unfold charAtIsWord
            obtain ⟨d, ident', hident⟩ : ∃ d ident', ident = d :: ident' := by
              cases ident with
              | nil => exact absurd rfl hid
              | cons d t => exact ⟨d, t, rfl⟩
            have hgi : ln[i]? = some d := by
              have h2 : ln[i]? = (ln.drop i)[0]? := by
                rw [List.getElem?_drop]
                simp
              rw [h2, ← htail0, hident]
              simp
            rw [List.get?_eq_getElem?, hgi]
            exact hw d (by simp [hident])
          refine ⟨ln.take i, r0.takeWhile isRustWs, r2.takeWhile isRustWs,
            rest.take j, rest.drop (j + 1), q, hlnfull, ?_, ?_, ?_, ?_, ?_, ?_⟩
          · by_cases h0 : i = 0
            · left
              simp [h0]
            · right
              have hplen : (ln.take i).length = i := by simp [hiLen]
              have hlt1 : i - 1 < i := by omega
              refine ⟨ln.get ⟨i - 1, by omega⟩, ?_, ?_⟩
              · rw [List.getLast?_eq_getElem?,
                  show (List.take i ln).length - 1 = i - 1 from by rw [hplen],
                  List.getElem?_take, if_pos hlt1]
                exact List.getElem?_eq_getElem (by omega)
              · unfold wordBoundaryAt at hb
                rw [hcw, if_neg h0] at hb
                unfold charAtIsWord at hb
                rw [List.get?_eq_getElem?] at hb
                rw [List.getElem?_eq_getElem (by omega)] at hb
                simpa using hb
          · exact fun c hc => List.mem_takeWhile_imp hc
          · exact fun c hc => List.mem_takeWhile_imp hc
          · simpa using hq
          · intro hnil
            have h5 : (rest.take j).length = 0 := by rw [hnil]; simp
            rw [List.length_take] at h5
            omega
          · intro c hc
            obtain ⟨m, hmlt, hcm⟩ := List.mem_iff_getElem.mp hc
            have hmj : m < j := by
              have := hmlt
              rw [List.length_take] at this
              omega
            have hnm := List.not_of_lt_findIdx (hj ▸ hmj)
            rw [← hcm, List.getElem_take]
            simpa using hnm
        · simp at hrest
    · simp at hrest

end SelIgnore

namespace SelIgnore

/-- C7: for a `LineRegex` pattern whose specification is a bare identifier
(nonempty, word characters, not slash-delimited), a line matches exactly
when it contains a word-boundary-delimited occurrence of the identifier
followed (up to whitespace) by `=` and a quoted value; in particular
`api_key` matches `api_key = "secret"` and `api_key = 'x'` but not
`not_an_api_key = "y"`. -/
theorem C7_thm (rrm : Str → Str → Bool) (rrv : Str → Bool) :
    (∀ (p : IgnorePattern) (ln : Str) (n : Nat),
      p.patternType = .lineRegex →
      slashDelimited p.specification = false →
      p.specification ≠ [] →
      (∀ c ∈ p.specification, isWordChar c = true) →
      (matchesLineE rrm rrv p ln n = .ok true ↔ AssignMatchSpec p.specification ln)) ∧
    (matchesLineE rrm rrv ⟨[], .lineRegex, "api_key".toList⟩
      ("api_key = ".toList ++ ('"' :: ("secret".toList ++ ['"']))) 1 = .ok true) ∧
    (matchesLineE rrm rrv ⟨[], .lineRegex, "api_key".toList⟩
      ("api_key = ".toList ++ (quoteChar :: ('x' :: [quoteChar]))) 2 = .ok true) ∧
    (matchesLineE rrm rrv ⟨[], .lineRegex, "api_key".toList⟩
      ("not_an_api_key = ".toList ++ ('"' :: ('y' :: ['"']))) 3 = .ok false) := by
  have hred : ∀ (spec ln : Str) (n : Nat), slashDelimited spec = false →
      matchesLineE rrm rrv ⟨[], .lineRegex, spec⟩ ln n = .ok (assignRegexMatch spec ln) := by
    intro spec ln n hs
    unfold matchesLineE
    simp [hs]
  refine ⟨?_, ?_, ?_, ?_⟩
  · intro p ln n hk hs hne hwc
    unfold matchesLineE
    rw [hk, hs]
    simp only [Bool.false_eq_true, if_false]
    constructor
    · intro hok
      have : assignRegexMatch p.specification ln = true := by
        injection hok
      exact spec_of_assignRegexMatch _ _ hne hwc this
    · intro hspec
      rw [assignRegexMatch_of_spec _ _ hne hwc hspec]
  · rw [hred _ _ _ (by decide)]
    have : assignRegexMatch "api_key".toList
        ("api_key = ".toList ++ ('"' :: ("secret".toList ++ ['"']))) = true := by decide
    rw [this]
  · rw [hred _ _ _ (by decide)]
    have : assignRegexMatch "api_key".toList
        ("api_key = ".toList ++ (quoteChar :: ('x' :: [quoteChar]))) = true := by decide
    rw [this]
  · rw [hred _ _ _ (by decide)]
    have : assignRegexMatch "api_key".toList
        ("not_an_api_key = ".toList ++ ('"' :: ('y' :: ['"']))) = false := by decide
    rw [this]

/-- Witness for C7: the characterization applied to the concrete identifier
`api_key` and the line `api_key = "secret"`. -/
theorem C7_witness :
    AssignMatchSpec "api_key".toList
      ("api_key = ".toList ++ ('"' :: ("secret".toList ++ ['"']))) := by
  refine ((C7_thm (fun _ _ => false) (fun _ => true)).1
    ⟨[], .lineRegex, "api_key".toList⟩
    ("api_key = ".toList ++ ('"' :: ("secret".toList ++ ['"']))) 1
    rfl (by decide) (by decide) (by decide)).mp ?_
  exact ((C7_thm (fun _ _ => false) (fun _ => true)).2.1)

end SelIgnore

namespace SelIgnore

lemma lookupA_setA_self {α : Type} (k : Str) (v : α) (m : List (Str × α)) :
    lookupA k (setA k v m) = some v := by
  simp [setA, lookupA]

lemma eraseA_cons {α : Type} (q : Str) (kv : Str × α) (rest : List (Str × α)) :
    eraseA q (kv :: rest) =
      if kv.1 = q then eraseA q rest else kv :: eraseA q rest := by
  by_cases h : kv.1 = q <;> simp [eraseA, List.filter_cons, h]

lemma lookupA_eraseA_ne {α : Type} {k q : Str} (m : List (Str × α)) (h : q ≠ k) :
    lookupA k (eraseA q m) = lookupA k m := by
  induction m with
  | nil => rfl
  | cons kv rest ih =>
    rw [eraseA_cons]
    by_cases hq : kv.1 = q
    · rw [if_pos hq, ih]
      have hk : kv.1 ≠ k := by rw [hq]; exact h
      simp [lookupA, hk]
    · rw [if_neg hq]
      by_cases hk : kv.1 = k <;> simp [lookupA, hk, ih]

lemma lookupA_eraseA_self {α : Type} (k : Str) (m : List (Str × α)) :
    lookupA k (eraseA k m) = none := by
  induction m with
  | nil => rfl
  | cons kv rest ih =>
    rw [eraseA_cons]
    by_cases hk : kv.1 = k
    · rw [if_pos hk]
      exact ih
    · rw [if_neg hk]
      simp [lookupA, hk, ih]

lemma lookupA_setA_ne {α : Type} {k q : Str} (v : α) (m : List (Str × α)) (h : q ≠ k) :
    lookupA k (setA q v m) = lookupA k m := by
  simp only [setA, lookupA, if_neg (by simpa using h)]
  exact lookupA_eraseA_ne m h

/-- C4: the engine evaluated on a file covered only by the wildcard
configuration key `all`: the pre-commit pass looks up only the file's own
path, finds nothing, and leaves the working tree, index and backup store
untouched; the post-commit pass finds no record and restores nothing.  (The
claim — and the repository's own `test_global_config_merge` test — expect
the `GLOBAL` line to be stripped and restored.) -/
theorem C4_thm (rrm : Str → Str → Bool) (rrv : Str → Bool) (hash : Str → Nat) :
    processPreCommit rrm rrv hash
      ⟨[("all".toList, [⟨[], .lineRegex, "/GLOBAL/".toList⟩])], true⟩
      ⟨["test.txt".toList],
        [("test.txt".toList, "line1\nGLOBAL\n".toList)],
        [("test.txt".toList, "line1\nGLOBAL\n".toList)], []⟩ =
      .ok ⟨["test.txt".toList],
        [("test.txt".toList, "line1\nGLOBAL\n".toList)],
        [("test.txt".toList, "line1\nGLOBAL\n".toList)], []⟩ ∧
    processPostCommit hash
      ⟨[("all".toList, [⟨[], .lineRegex, "/GLOBAL/".toList⟩])], true⟩
      ⟨["test.txt".toList],
        [("test.txt".toList, "line1\nGLOBAL\n".toList)],
        [("test.txt".toList, "line1\nGLOBAL\n".toList)], []⟩ =
      .ok (⟨["test.txt".toList],
        [("test.txt".toList, "line1\nGLOBAL\n".toList)],
        [("test.txt".toList, "line1\nGLOBAL\n".toList)], []⟩, []) :=
  ⟨rfl, rfl⟩

end SelIgnore

namespace SelIgnore

lemma postCommitStep_ok {hash : Str → Nat} {st : EngineState}
    {evs : List RestoreEvent} {k : Str} {acc2 : EngineState × List RestoreEvent}
    (h : postCommitStep hash (st, evs) k = .ok acc2) :
    ∀ e ∈ evs, e ∈ acc2.2 := by
  rw [postCommitStep] at h
  rcases hbd : lookupA k st.storage with _ | bd <;> simp only [hbd] at h
  · simp only [Except.ok.injEq] at h
    subst h
    exact fun e he => he
  · rcases hcur : lookupA k st.workingTree with _ | cur <;> simp only [hcur] at h
    · simp at h
    · by_cases hh : hash cur = bd.cleaned_file_hash
      · rw [if_pos hh] at h
        simp only [Except.ok.injEq] at h
        subst h
        intro e he
        simp [he]
      · rw [if_neg hh] at h
        simp only [Except.ok.injEq] at h
        subst h
        intro e he
        simp [he]

/-- Once a path has no live record, the restore loop never restores it,
never resurrects a record for it, and leaves its working-tree entry
unchanged; already reported events persist. -/
lemma postCommitLoop_preserve (hash : Str → Nat) (p : Str) :
    ∀ (ks : List Str) (st : EngineState) (evs0 : List RestoreEvent)
      (st' : EngineState) (evs' : List RestoreEvent),
      postCommitLoop hash ks (st, evs0) = .ok (st', evs') →
      lookupA p st.storage = none →
      lookupA p st'.storage = none ∧
      lookupA p st'.workingTree = lookupA p st.workingTree ∧
      ∀ e ∈ evs0, e ∈ evs' := by
  intro ks
  induction ks with
  | nil =>
    intro st evs0 st' evs' h hnone
    unfold postCommitLoop at h
    simp only [Except.ok.injEq, Prod.mk.injEq] at h
    obtain ⟨h1, h2⟩ := h
    subst h1
    subst h2
    exact ⟨hnone, rfl, fun e he => he⟩
  | cons k ks ih =>
    intro st evs0 st' evs' h hnone
    unfold postCommitLoop at h
    rcases hstep : postCommitStep hash (st, evs0) k with e | acc2 <;> simp only [hstep] at h
    · simp at h
    · rw [postCommitStep] at hstep
      rcases hbd : lookupA k st.storage with _ | bd <;> simp only [hbd] at hstep
      · simp only [Except.ok.injEq] at hstep
        subst hstep
        exact ih st evs0 st' evs' h hnone
      · have hkp : k ≠ p := by
          intro he
          rw [he, hnone] at hbd
          exact Option.noConfusion hbd
        rcases hcur : lookupA k st.workingTree with _ | cur <;> simp only [hcur] at hstep
        · simp at hstep
        · by_cases hh : hash cur = bd.cleaned_file_hash
          · rw [if_pos hh] at hstep
            simp only [Except.ok.injEq] at hstep
            subst hstep
            obtain ⟨ha, hb, hc⟩ := ih _ _ st' evs' h
              (by simp only []; rw [lookupA_eraseA_ne _ hkp]; exact hnone)
            refine ⟨ha, ?_, fun e he => hc e (by simp [he])⟩
            rw [hb]
            simp only []
            exact lookupA_setA_ne _ _ hkp
          · rw [if_neg hh] at hstep
            simp only [Except.ok.injEq] at hstep
            subst hstep
            obtain ⟨ha, hb, hc⟩ := ih _ _ st' evs' h
              (by simp only []; rw [lookupA_eraseA_ne _ hkp]; exact hnone)
            exact ⟨ha, hb, fun e he => hc e (by simp [he])⟩

/-- Behaviour of the restore loop at a path that holds a live record and a
readable working-tree file: on hash equality the original content is
written back and a restore line reported; on mismatch the file is left
unchanged and the skip warning reported; in both cases the record is
consumed; paths not in the list keep record and content. -/
lemma postCommitLoop_spec (hash : Str → Nat) (p : Str) (bd : BackupData) (cur : Str) :
    ∀ (ks : List Str) (st : EngineState) (evs0 : List RestoreEvent)
      (st' : EngineState) (evs' : List RestoreEvent),
      postCommitLoop hash ks (st, evs0) = .ok (st', evs') →
      lookupA p st.storage = some bd →
      lookupA p st.workingTree = some cur →
      (p ∈ ks →
        lookupA p st'.storage = none ∧
        (hash cur = bd.cleaned_file_hash →
          lookupA p st'.workingTree = some bd.original_content ∧ .restored p ∈ evs') ∧
        (hash cur ≠ bd.cleaned_file_hash →
          lookupA p st'.workingTree = some cur ∧ .skippedWarning p ∈ evs')) ∧
      (p ∉ ks →
        lookupA p st'.storage = some bd ∧ lookupA p st'.workingTree = some cur) := by
  intro ks
  induction ks with
  | nil =>
    intro st evs0 st' evs' h hbd hcur
    unfold postCommitLoop at h
    simp only [Except.ok.injEq, Prod.mk.injEq] at h
    obtain ⟨h1, h2⟩ := h
    subst h1
    subst h2
    exact ⟨fun hmem => absurd hmem (List.not_mem_nil p), fun _ => ⟨hbd, hcur⟩⟩
  | cons k ks ih =>
    intro st evs0 st' evs' h hbd hcur
    unfold postCommitLoop at h
    rcases hstep : postCommitStep hash (st, evs0) k with e | acc2 <;> simp only [hstep] at h
    · simp at h
    · by_cases hkp : k = p
      · subst hkp
        rw [postCommitStep] at hstep
        simp only [hbd, hcur] at hstep
        by_cases hh : hash cur = bd.cleaned_file_hash
        · rw [if_pos hh] at hstep
          simp only [Except.ok.injEq] at hstep
          subst hstep
          obtain ⟨ha, hb, hc⟩ := postCommitLoop_preserve hash k ks _ _ st' evs' h
            (lookupA_eraseA_self k _)
          refine ⟨fun _ => ⟨ha, fun _ => ?_, fun hne => absurd hh hne⟩, fun hnot => ?_⟩
          · refine ⟨?_, hc _ (by simp)⟩
            rw [hb]
            simp only []
            exact lookupA_setA_self _ _ _
          · exact absurd (by simp) hnot
        · rw [if_neg hh] at hstep
          simp only [Except.ok.injEq] at hstep
          subst hstep
          obtain ⟨ha, hb, hc⟩ := postCommitLoop_preserve hash k ks _ _ st' evs' h
            (by simp only []; exact lookupA_eraseA_self k _)
          refine ⟨fun _ => ⟨ha, fun heq => absurd heq hh, fun _ => ?_⟩, fun hnot => ?_⟩
          · refine ⟨?_, hc _ (by simp)⟩
            rw [hb]
            exact hcur
          · exact absurd (by simp) hnot
      · rw [postCommitStep] at hstep
        rcases hbdk : lookupA k st.storage with _ | bdk <;> simp only [hbdk] at hstep
        · simp only [Except.ok.injEq] at hstep
          subst hstep
          obtain ⟨hin, hout⟩ := ih st evs0 st' evs' h hbd hcur
          refine ⟨fun hmem => hin ?_, fun hnot => hout fun hmem => hnot (by simp [hmem])⟩
          rcases List.mem_cons.mp hmem with he | he
          · exact absurd he.symm hkp
          · exact he
        · rcases hcurk : lookupA k st.workingTree with _ | curk <;> simp only [hcurk] at hstep
          · simp at hstep
          · have hbd2 : lookupA p (eraseA k st.storage) = some bd := by
              rw [lookupA_eraseA_ne _ hkp]
              exact hbd
            by_cases hh : hash curk = bdk.cleaned_file_hash
            · rw [if_pos hh] at hstep
              simp only [Except.ok.injEq] at hstep
              subst hstep
              obtain ⟨hin, hout⟩ := ih _ _ st' evs' h
                (by simpa using hbd2)
                (by simp only []; rw [lookupA_setA_ne _ _ hkp]; exact hcur)
              refine ⟨fun hmem => hin ?_, fun hnot => hout fun hmem => hnot (by simp [hmem])⟩
              rcases List.mem_cons.mp hmem with he | he
              · exact absurd he.symm hkp
              · exact he
            · rw [if_neg hh] at hstep
              simp only [Except.ok.injEq] at hstep
              subst hstep
              obtain ⟨hin, hout⟩ := ih _ _ st' evs' h (by simpa using hbd2) hcur
              refine ⟨fun hmem => hin ?_, fun hnot => hout fun hmem => hnot (by simp [hmem])⟩
              rcases List.mem_cons.mp hmem with he | he
              · exact absurd he.symm hkp
              · exact he

end SelIgnore

namespace SelIgnore

lemma processPostCommit_ok {hash : Str → Nat} {cfg : Config} {st st' : EngineState}
    {evs' : List RestoreEvent}
    (h : processPostCommit hash cfg st = .ok (st', evs')) :
    ∃ st1, postCommitLoop hash (cfg.files.map Prod.fst) (st, []) = .ok (st1, evs') ∧
      st'.workingTree = st1.workingTree ∧
      (cfg.autoCleanup = true → st'.storage = []) ∧
      (cfg.autoCleanup = false → st'.storage = st1.storage) := by
  unfold processPostCommit at h
  rcases hloop : postCommitLoop hash (cfg.files.map Prod.fst) (st, [])
      with e | ⟨st1, evs1⟩ <;> simp only [hloop] at h
  · exact absurd h (by simp)
  · by_cases hc : cfg.autoCleanup
    · rw [if_pos hc] at h
      simp only [Except.ok.injEq, Prod.mk.injEq] at h
      obtain ⟨h1, h2⟩ := h
      subst h2
      refine ⟨st1, rfl, ?_, fun _ => ?_, fun hcf => absurd hc (by simp [hcf])⟩
      · rw [← h1]
      · rw [← h1]
    · rw [if_neg hc] at h
      simp only [Except.ok.injEq, Prod.mk.injEq] at h
      obtain ⟨h1, h2⟩ := h
      subst h2
      refine ⟨st1, rfl, ?_, fun hct => absurd hct hc, fun _ => ?_⟩
      · rw [← h1]
      · rw [← h1]

/-- C1: during the restore phase, a configured path holding a live record
and a readable working-tree file is written back with the record's original
content exactly when the hash of the current content equals the stored
`cleaned_file_hash`, and a restore line is reported; on mismatch the
working-tree entry is left unchanged and the skip warning is reported.
The statement holds for every such configured path of the run, so a
mismatch on one file does not prevent the processing of the others. -/
theorem C1_thm (hash : Str → Nat) (cfg : Config) (st st' : EngineState)
    (evs' : List RestoreEvent) (p : Str) (bd : BackupData) (cur : Str)
    (hrun : processPostCommit hash cfg st = .ok (st', evs'))
    (hp : p ∈ cfg.files.map Prod.fst)
    (hbd : lookupA p st.storage = some bd)
    (hcur : lookupA p st.workingTree = some cur) :
    (hash cur = bd.cleaned_file_hash →
      lookupA p st'.workingTree = some bd.original_content ∧ .restored p ∈ evs') ∧
    (hash cur ≠ bd.cleaned_file_hash →
      lookupA p st'.workingTree = some cur ∧ .skippedWarning p ∈ evs') := by
  obtain ⟨st1, hloop, hwt, _, _⟩ := processPostCommit_ok hrun
  obtain ⟨hin, _⟩ := postCommitLoop_spec hash p bd cur _ st [] st1 evs' hloop hbd hcur
  obtain ⟨_, heq, hne⟩ := hin hp
  constructor
  · intro hh
    obtain ⟨h1, h2⟩ := heq hh
    rw [hwt]
    exact ⟨h1, h2⟩
  · intro hh
    obtain ⟨h1, h2⟩ := hne hh
    rw [hwt]
    exact ⟨h1, h2⟩

/-- Witness for C1, on a one-file configuration with `hash` instantiated to
the content length: the current content matches the stored cleaned hash and
the original content is written back. -/
theorem C1_witness :
    lookupA "f.env".toList
      (EngineState.workingTree ⟨[], [], [("f.env".toList, "ORIG".toList)], []⟩) =
        some "ORIG".toList ∧
    (RestoreEvent.restored "f.env".toList ∈ [RestoreEvent.restored "f.env".toList]) := by
  have h := C1_thm List.length
    ⟨[("f.env".toList, [])], false⟩
    ⟨[], [], [("f.env".toList, "AB".toList)],
      [("f.env".toList, ⟨"ORIG".toList, [], 4, 2⟩)]⟩
    ⟨[], [], [("f.env".toList, "ORIG".toList)], []⟩
    [RestoreEvent.restored "f.env".toList]
    "f.env".toList ⟨"ORIG".toList, [], 4, 2⟩ "AB".toList
    rfl (by simp) rfl rfl
  exact h.1 rfl

/-- C3 as stated is false: a restore attempt that is skipped because of a
hash mismatch does delete the record from the store.  Concretely, with
`hash` the content length, a record whose `cleaned_file_hash` is `99` and a
working-tree content of length 3: the run reports the skip warning and the
resulting store holds no record for the path. -/
theorem C3_cex :
    processPostCommit List.length
      ⟨[("f.env".toList, [])], false⟩
      ⟨[], [], [("f.env".toList, "MOD".toList)],
        [("f.env".toList, ⟨"ORIG".toList, [], 4, 99⟩)]⟩ =
      .ok (⟨[], [], [("f.env".toList, "MOD".toList)], []⟩,
        [RestoreEvent.skippedWarning "f.env".toList]) :=
  rfl

/-- C3 (amended): a record created during the clean phase stays live only
until the first restore attempt that finds it or an explicit cleanup:
`restore_backup` removes the record before the hash check, so a restore
skipped because of a hash mismatch also deletes the record (the skip is
still reported and the working tree left unchanged). -/
theorem C3_thm (hash : Str → Nat) (cfg : Config) (st st' : EngineState)
    (evs' : List RestoreEvent) (p : Str) (bd : BackupData) (cur : Str)
    (hrun : processPostCommit hash cfg st = .ok (st', evs'))
    (hp : p ∈ cfg.files.map Prod.fst)
    (hbd : lookupA p st.storage = some bd)
    (hcur : lookupA p st.workingTree = some cur)
    (hmis : hash cur ≠ bd.cleaned_file_hash) :
    lookupA p st'.storage = none ∧ .skippedWarning p ∈ evs' ∧
      lookupA p st'.workingTree = some cur := by
  obtain ⟨st1, hloop, hwt, hct, hcf⟩ := processPostCommit_ok hrun
  obtain ⟨hin, _⟩ := postCommitLoop_spec hash p bd cur _ st [] st1 evs' hloop hbd hcur
  obtain ⟨hnone, _, hne⟩ := hin hp
  obtain ⟨h1, h2⟩ := hne hmis
  refine ⟨?_, h2, by rw [hwt]; exact h1⟩
  by_cases hc : cfg.autoCleanup
  · rw [hct hc]
    rfl
  · rw [hcf (by simpa using hc)]
    exact hnone

/-- Witness for C3's amended statement at the concrete mismatch run of the
counterexample. -/
theorem C3_witness :
    lookupA "f.env".toList
      (EngineState.storage ⟨[], [], [("f.env".toList, "MOD".toList)], []⟩) = none ∧
    (RestoreEvent.skippedWarning "f.env".toList ∈
      [RestoreEvent.skippedWarning "f.env".toList]) ∧
    lookupA "f.env".toList
      (EngineState.workingTree ⟨[], [], [("f.env".toList, "MOD".toList)], []⟩) =
      some "MOD".toList :=
  C3_thm List.length
    ⟨[("f.env".toList, [])], false⟩
    ⟨[], [], [("f.env".toList, "MOD".toList)],
      [("f.env".toList, ⟨"ORIG".toList, [], 4, 99⟩)]⟩
    ⟨[], [], [("f.env".toList, "MOD".toList)], []⟩
    [RestoreEvent.skippedWarning "f.env".toList]
    "f.env".toList ⟨"ORIG".toList, [], 4, 99⟩ "MOD".toList
    rfl (by simp) rfl rfl (by decide)

end SelIgnore

namespace SelIgnore

/-- Effect of the clean phase on a single-file configuration whose staged
transform changes the content: the record is stored, the cleaned text
written to the working tree, and the file re-staged. -/
lemma preCommit_single (rrm : Str → Str → Bool) (rrv : Str → Bool) (hash : Str → Nat)
    (p : Str) (P : List IgnorePattern) (C : Str) (st : EngineState)
    (c1 : Str) (m1 : List (Nat × Str)) (ac : Bool)
    (hstaged : st.staged = [p])
    (hidx : lookupA p st.index = some C)
    (hpfc : processFileContent rrm rrv C P = .ok (c1, m1))
    (hne : c1 ≠ C) :
    processPreCommit rrm rrv hash ⟨[(p, P)], ac⟩ st =
      .ok ⟨st.staged, setA p c1 st.index, setA p c1 st.workingTree,
           setA p ⟨C, m1, hash C, hash c1⟩ st.storage⟩ := by
  unfold processPreCommit
  rw [hstaged]
  unfold preCommitLoop
  rw [preCommitStep]
  have hcfg : lookupA p ([(p, P)] : List (Str × List IgnorePattern)) = some P := by
    simp [lookupA]
  simp only [hcfg, hidx, hpfc, if_pos hne]
  unfold preCommitLoop
  simp only [List.nil_append]
  unfold restageAll
  simp only [lookupA_setA_self]
  unfold restageAll
  rw [hstaged]

/-- Effect of the restore phase right after such a clean phase when the
working tree was not touched in between: the hash gate passes and the
original content is written back. -/
lemma postCommit_single (hash : Str → Nat) (p : Str) (P : List IgnorePattern)
    (C c1 : Str) (m1 : List (Nat × Str)) (st : EngineState) (ac : Bool) :
    ∃ st2 evs,
      processPostCommit hash ⟨[(p, P)], ac⟩
        ⟨st.staged, setA p c1 st.index, setA p c1 st.workingTree,
         setA p ⟨C, m1, hash C, hash c1⟩ st.storage⟩ = .ok (st2, evs) ∧
      lookupA p st2.workingTree = some C ∧ .restored p ∈ evs := by
  unfold processPostCommit
  simp only [List.map_cons, List.map_nil]
  unfold postCommitLoop
  rw [postCommitStep]
  simp only [lookupA_setA_self]
  rw [if_pos trivial]
  unfold postCommitLoop
  cases ac
  · refine ⟨_, _, rfl, ?_, by simp⟩
    simp only []
    exact lookupA_setA_self _ _ _
  · refine ⟨_, _, rfl, ?_, by simp⟩
    simp only []
    exact lookupA_setA_self _ _ _

/-- C2: clean followed by restore with no intervening modification is the
identity on the working tree: for a single-file configuration whose staged
transform changes content `C`, after the pre-commit pass the working tree
holds the cleaned text and the post-commit pass restores exactly `C`; in
particular `LineNumber "2"` on `"A=1\nB=SECRET\nC=3\n"` cleans to
`"A=1\nC=3\n"` and restores `"A=1\nB=SECRET\nC=3\n"`. -/
theorem C2_thm :
    (∀ (rrm : Str → Str → Bool) (rrv : Str → Bool) (hash : Str → Nat)
       (p : Str) (P : List IgnorePattern) (C : Str) (st : EngineState)
       (c1 : Str) (m1 : List (Nat × Str)) (ac : Bool) (st1 : EngineState),
      st.staged = [p] →
      lookupA p st.index = some C →
      processFileContent rrm rrv C P = .ok (c1, m1) →
      c1 ≠ C →
      processPreCommit rrm rrv hash ⟨[(p, P)], ac⟩ st = .ok st1 →
      lookupA p st1.workingTree = some c1 ∧
      ∃ st2 evs, processPostCommit hash ⟨[(p, P)], ac⟩ st1 = .ok (st2, evs) ∧
        lookupA p st2.workingTree = some C ∧ .restored p ∈ evs) ∧
    (∀ (rrm : Str → Str → Bool) (rrv : Str → Bool) (hash : Str → Nat),
      ∃ st1 st2 evs,
        processPreCommit rrm rrv hash
          ⟨[("secrets.env".toList, [⟨[], .lineNumber, "2".toList⟩])], true⟩
          ⟨["secrets.env".toList],
           [("secrets.env".toList, "A=1\nB=SECRET\nC=3\n".toList)],
           [("secrets.env".toList, "A=1\nB=SECRET\nC=3\n".toList)], []⟩ = .ok st1 ∧
        lookupA "secrets.env".toList st1.workingTree = some "A=1\nC=3\n".toList ∧
        processPostCommit hash
          ⟨[("secrets.env".toList, [⟨[], .lineNumber, "2".toList⟩])], true⟩ st1 =
          .ok (st2, evs) ∧
        lookupA "secrets.env".toList st2.workingTree =
          some "A=1\nB=SECRET\nC=3\n".toList) := by
  constructor
  · intro rrm rrv hash p P C st c1 m1 ac st1 hstaged hidx hpfc hne hrun
    rw [preCommit_single rrm rrv hash p P C st c1 m1 ac hstaged hidx hpfc hne] at hrun
    have hst1 : st1 = ⟨st.staged, setA p c1 st.index, setA p c1 st.workingTree,
        setA p ⟨C, m1, hash C, hash c1⟩ st.storage⟩ := by
      injection hrun with h
      exact h.symm
    subst hst1
    refine ⟨?_, ?_⟩
    · simp only []
      exact lookupA_setA_self _ _ _
    · obtain ⟨st2, evs, hpost, htree, hev⟩ := postCommit_single hash p P C c1 m1 st ac
      exact ⟨st2, evs, hpost, htree, hev⟩
  · intro rrm rrv hash
    have hpfc : processFileContent rrm rrv "A=1\nB=SECRET\nC=3\n".toList
        [⟨[], .lineNumber, "2".toList⟩] =
        .ok ("A=1\nC=3\n".toList, [(1, "B=SECRET".toList)]) := rfl
    have hpre := preCommit_single rrm rrv hash "secrets.env".toList
      [⟨[], .lineNumber, "2".toList⟩] "A=1\nB=SECRET\nC=3\n".toList
      ⟨["secrets.env".toList],
       [("secrets.env".toList, "A=1\nB=SECRET\nC=3\n".toList)],
       [("secrets.env".toList, "A=1\nB=SECRET\nC=3\n".toList)], []⟩
      "A=1\nC=3\n".toList [(1, "B=SECRET".toList)] true rfl rfl hpfc (by decide)
    obtain ⟨st2, evs, hpost, htree, _⟩ := postCommit_single hash "secrets.env".toList
      [⟨[], .lineNumber, "2".toList⟩] "A=1\nB=SECRET\nC=3\n".toList
      "A=1\nC=3\n".toList [(1, "B=SECRET".toList)]
      ⟨["secrets.env".toList],
       [("secrets.env".toList, "A=1\nB=SECRET\nC=3\n".toList)],
       [("secrets.env".toList, "A=1\nB=SECRET\nC=3\n".toList)], []⟩ true
    refine ⟨_, st2, evs, hpre, ?_, hpost, htree⟩
    simp only []
    exact lookupA_setA_self _ _ _

/-- Witness for C2: the concrete scenario instantiated with the length
hash; the restored working tree holds the original staged content. -/
theorem C2_witness :
    ∃ st1 st2 evs,
      processPreCommit (fun _ _ => false) (fun _ => true) List.length
        ⟨[("secrets.env".toList, [⟨[], .lineNumber, "2".toList⟩])], true⟩
        ⟨["secrets.env".toList],
         [("secrets.env".toList, "A=1\nB=SECRET\nC=3\n".toList)],
         [("secrets.env".toList, "A=1\nB=SECRET\nC=3\n".toList)], []⟩ = .ok st1 ∧
      lookupA "secrets.env".toList st1.workingTree = some "A=1\nC=3\n".toList ∧
      processPostCommit List.length
        ⟨[("secrets.env".toList, [⟨[], .lineNumber, "2".toList⟩])], true⟩ st1 =
        .ok (st2, evs) ∧
      lookupA "secrets.env".toList st2.workingTree =
        some "A=1\nB=SECRET\nC=3\n".toList :=
  C2_thm.2 (fun _ _ => false) (fun _ => true) List.length

end SelIgnore

namespace SelIgnore

/-- A run of two or more consecutive whitespace-only lines. -/
def hasConsecBlank : List Str → Bool
  | a :: b :: t => (decide (rustTrim a = []) && decide (rustTrim b = [])) || hasConsecBlank (b :: t)
  | _ => false

lemma stripCrRev_cr (rest : Str) : stripCrRev ('\r' :: rest) = rest.reverse := rfl

lemma stripCrRev_other (a : Char) (rest : Str) (h : a ≠ '\r') :
    stripCrRev (a :: rest) = (a :: rest).reverse := by
  unfold stripCrRev
  split
  · rename_i r2 heq
    injection heq with h1 h2
    exact absurd h1 h
  · rfl

lemma stripCrRev_subset (acc : Str) : ∀ x ∈ stripCrRev acc, x ∈ acc := by
  rcases acc with _ | ⟨a, t⟩
  · intro x hx
    simp [stripCrRev] at hx
  · by_cases ha : a = '\r'
    · subst ha
      rw [stripCrRev_cr]
      intro x hx
      exact List.mem_cons_of_mem _ (List.mem_reverse.mp hx)
    · rw [stripCrRev_other a t ha]
      intro x hx
      exact List.mem_reverse.mp hx

lemma linesAux_no_nl : ∀ (s acc : Str), (∀ c ∈ acc, c ≠ '\n') →
    ∀ l ∈ linesAux acc s, '\n' ∉ l := by
  intro s
  induction s with
  | nil =>
    intro acc hacc l hl
    unfold linesAux at hl
    by_cases ha : acc = []
    · simp [ha] at hl
    · rw [if_neg ha] at hl
      simp only [List.mem_singleton] at hl
      subst hl
      intro hmem
      exact hacc _ (List.mem_reverse.mp hmem) rfl
  | cons c rest ih =>
    intro acc hacc l hl
    unfold linesAux at hl
    by_cases hc : c = '\n'
    · rw [if_pos hc] at hl
      rcases List.mem_cons.mp hl with he | he
      · subst he
        intro hmem
        exact hacc _ (stripCrRev_subset acc _ hmem) rfl
      · exact ih [] (by intro x hx; simp at hx) l he
    · rw [if_neg hc] at hl
      exact ih (c :: acc) (by
        intro x hx
        rcases List.mem_cons.mp hx with he | he
        · subst he; exact hc
        · exact hacc _ he) l hl

lemma rustLines_no_nl (s : Str) : ∀ l ∈ rustLines s, '\n' ∉ l :=
  linesAux_no_nl s [] (by intro c hc; simp at hc)

lemma endsWithNl_cons_cons (a b : Char) (t : Str) :
    endsWithNl (a :: b :: t) = endsWithNl (b :: t) := by
  unfold endsWithNl
  rw [List.getLast?_cons_cons]

lemma endsWithNl_single (c : Char) : endsWithNl [c] = decide (c = '\n') := by
  unfold endsWithNl
  simp [List.getLast?]

/-- Line count of `rustLines` as a function of the newline count: one line
per newline, plus a final line when the content is nonempty and does not
end with a newline. -/
lemma linesAux_length : ∀ (s acc : Str),
    (linesAux acc s).length = s.count '\n' +
      (if s = [] then (if acc = [] then 0 else 1)
       else (if endsWithNl s then 0 else 1)) := by
  intro s
  induction s with
  | nil =>
    intro acc
    unfold linesAux
    by_cases ha : acc = [] <;> simp [ha]
  | cons c rest ih =>
    intro acc
    unfold linesAux
    by_cases hc : c = '\n'
    · rw [if_pos hc]
      subst hc
      simp only [List.length_cons, ih [], List.count_cons]
      rcases rest with _ | ⟨b, t⟩
      · simp [endsWithNl_single]
      · rw [endsWithNl_cons_cons]
        simp only [if_neg (show ¬(b :: t : Str) = [] by simp)]
        by_cases he : endsWithNl (b :: t) <;> simp [he]
    · rw [if_neg hc]
      rw [ih (c :: acc)]
      simp only [List.count_cons]
      have hcb : (c == '\n') = false := by simpa using hc
      rcases rest with _ | ⟨b, t⟩
      · rw [endsWithNl_single]
        simp [hc, hcb]
      · rw [endsWithNl_cons_cons]
        simp only [if_neg (show ¬(b :: t : Str) = [] by simp),
          if_neg (show ¬(c :: b :: t : Str) = [] by simp), hcb]
        simp

lemma rustLines_length (s : Str) :
    (rustLines s).length = s.count '\n' +
      (if s = [] then 0 else (if endsWithNl s then 0 else 1)) := by
  unfold rustLines
  rw [linesAux_length]
  by_cases hs : s = [] <;> simp [hs]

lemma joinNl_count : ∀ (ls : List Str), (∀ l ∈ ls, '\n' ∉ l) →
    (joinNl ls).count '\n' = ls.length - 1 := by
  intro ls
  induction ls with
  | nil => intro; simp [joinNl]
  | cons l rest ih =>
    intro h
    rcases rest with _ | ⟨l2, t⟩
    · unfold joinNl
      simp [List.count_eq_zero.mpr (h l (by simp))]
    · rw [show joinNl (l :: l2 :: t) = l ++ '\n' :: joinNl (l2 :: t) from rfl]
      rw [List.count_append, List.count_cons]
      rw [List.count_eq_zero.mpr (h l (by simp))]
      rw [ih (fun x hx => h x (by simp [hx]))]
      simp

lemma collapseBlanks_sublist : ∀ (ls : List Str) (b : Bool),
    (collapseBlanks ls b).Sublist ls := by
  intro ls
  induction ls with
  | nil => intro b; simp [collapseBlanks]
  | cons l rest ih =>
    intro b
    unfold collapseBlanks
    by_cases hb : rustTrim l = []
    · rw [if_pos hb]
      cases b
      · simp only [if_neg (by simp : ¬false = true)]
        exact List.Sublist.cons₂ l (ih true)
      · simp only [if_pos rfl]
        exact List.Sublist.cons l (ih true)
    · rw [if_neg hb]
      exact List.Sublist.cons₂ l (ih false)

lemma collapseBlanks_blank_true {l : Str} (ls : List Str) (h : rustTrim l = []) :
    collapseBlanks (l :: ls) true = collapseBlanks ls true := by
  simp [collapseBlanks, h]

lemma collapseBlanks_blank_false {l : Str} (ls : List Str) (h : rustTrim l = []) :
    collapseBlanks (l :: ls) false = l :: collapseBlanks ls true := by
  simp [collapseBlanks, h]

lemma collapseBlanks_nonblank {l : Str} (ls : List Str) (b : Bool) (h : ¬ rustTrim l = []) :
    collapseBlanks (l :: ls) b = l :: collapseBlanks ls false := by
  simp [collapseBlanks, h]

lemma collapseBlanks_length_lt : ∀ (ls : List Str) (b : Bool),
    hasConsecBlank ls = true → (collapseBlanks ls b).length < ls.length := by
  intro ls
  induction ls with
  | nil => intro b h; simp [hasConsecBlank] at h
  | cons a rest ih =>
    intro b h
    rcases rest with _ | ⟨a2, t⟩
    · simp [hasConsecBlank] at h
    · unfold hasConsecBlank at h
      simp only [Bool.or_eq_true, Bool.and_eq_true, decide_eq_true_eq] at h
      rcases h with ⟨hba, hba2⟩ | hrec
      · have hsub : (collapseBlanks t true).length ≤ t.length :=
          (collapseBlanks_sublist t true).length_le
        cases b
        · rw [collapseBlanks_blank_false _ hba, collapseBlanks_blank_true _ hba2]
          simp only [List.length_cons]
          omega
        · rw [collapseBlanks_blank_true _ hba, collapseBlanks_blank_true _ hba2]
          simp only [List.length_cons]
          omega
      · by_cases hba : rustTrim a = []
        · cases b
          · rw [collapseBlanks_blank_false _ hba]
            have := ih true hrec
            simp only [List.length_cons] at this ⊢
            omega
          · rw [collapseBlanks_blank_true _ hba]
            have := ih true hrec
            simp only [List.length_cons] at this ⊢
            omega
        · rw [collapseBlanks_nonblank _ b hba]
          have := ih false hrec
          simp only [List.length_cons] at this ⊢
          omega

lemma hasConsecBlank_len : ∀ (ls : List Str), hasConsecBlank ls = true → 2 ≤ ls.length := by
  intro ls h
  rcases ls with _ | ⟨a, _ | ⟨b, t⟩⟩
  · simp [hasConsecBlank] at h
  · simp [hasConsecBlank] at h
  · simp

end SelIgnore

namespace SelIgnore

/-- A transform run in which no pattern ignored any line still changes any
content that contains two consecutive whitespace-only lines, because the
blank-line collapse drops at least one line and therefore at least one
newline. -/
lemma processFileContent_ne_of_consecBlank (rrm : Str → Str → Bool)
    (rrv : Str → Bool) (C : Str) (P : List IgnorePattern) (c1 : Str)
    (hpfc : processFileContent rrm rrv C P = .ok (c1, []))
    (hcb : hasConsecBlank (rustLines C) = true) :
    c1 ≠ C := by
  unfold processFileContent at hpfc
  rcases hI : ignoredIdxAll rrm rrv P (rustLines C) C with e | ignored <;>
    simp only [hI] at hpfc
  · exact absurd hpfc (by simp)
  simp only [Except.ok.injEq, Prod.mk.injEq] at hpfc
  obtain ⟨hc1, hmap⟩ := hpfc
  have hnone : ∀ il ∈ (rustLines C).enum, ¬ (ignored.contains il.1 = true) :=
    List.filter_eq_nil_iff.mp hmap
  have hkept : (List.filter (fun il => !(ignored.contains il.1))
      (rustLines C).enum).map Prod.snd = rustLines C := by
    rw [List.filter_eq_self.mpr]
    · exact List.enum_map_snd _
    · intro a ha
      simpa using hnone a ha
  rw [hkept] at hc1
  set n := (rustLines C).length with hn
  set cl1 := collapseBlanks (rustLines C) false with hcl
  set joined := joinNl cl1 with hj
  have hk : cl1.length < n := collapseBlanks_length_lt _ false hcb
  have hn2 : 2 ≤ n := hasConsecBlank_len _ hcb
  have hCne : C ≠ [] := by
    intro hCnil
    rw [hCnil] at hn
    simp [rustLines, linesAux] at hn
    omega
  have hnlc : ∀ l ∈ cl1, '\n' ∉ l := by
    intro l hl
    exact rustLines_no_nl C l ((collapseBlanks_sublist _ false).mem hl)
  have hjoined : joined.count '\n' = cl1.length - 1 := joinNl_count cl1 hnlc
  have hCcount : n = C.count '\n' + (if endsWithNl C then 0 else 1) := by
    rw [hn, rustLines_length]
    simp [hCne]
  intro heq
  have hcount : c1.count '\n' = C.count '\n' := by rw [heq]
  rw [← hc1] at hcount
  by_cases hcond : (endsWithNl C && !(decide (joined = []))) = true
  · rw [if_pos hcond] at hcount
    simp only [Bool.and_eq_true, Bool.not_eq_true', decide_eq_false_iff_not] at hcond
    obtain ⟨hend, hjne⟩ := hcond
    have hcl1ne : cl1 ≠ [] := by
      intro hnil
      rw [hnil] at hj
      exact hjne (by rw [hj]; rfl)
    have hk1 : 1 ≤ cl1.length := by
      have := List.length_pos.mpr hcl1ne
      omega
    rw [List.count_append, hjoined] at hcount
    rw [hend] at hCcount
    simp at hCcount
    simp at hcount
    omega
  · rw [if_neg hcond] at hcount
    rw [hjoined] at hcount
    have he1 : (if endsWithNl C then 0 else 1) ≤ 1 := by
      by_cases hh : endsWithNl C <;> simp [hh]
    omega

/-- C10: with a pattern list that ignores no line of `C` but `C` containing
consecutive blank lines, the cleaned output differs from `C`, so the clean
phase stores a backup record and rewrites the working tree (and re-stages
the file). -/
theorem C10_thm (rrm : Str → Str → Bool) (rrv : Str → Bool) (hash : Str → Nat)
    (p : Str) (P : List IgnorePattern) (C : Str) (st : EngineState)
    (c1 : Str) (ac : Bool)
    (hpfc : processFileContent rrm rrv C P = .ok (c1, []))
    (hcb : hasConsecBlank (rustLines C) = true)
    (hstaged : st.staged = [p])
    (hidx : lookupA p st.index = some C) :
    c1 ≠ C ∧
    processPreCommit rrm rrv hash ⟨[(p, P)], ac⟩ st =
      .ok ⟨st.staged, setA p c1 st.index, setA p c1 st.workingTree,
           setA p ⟨C, [], hash C, hash c1⟩ st.storage⟩ ∧
    lookupA p (setA p (⟨C, [], hash C, hash c1⟩ : BackupData) st.storage) =
      some ⟨C, [], hash C, hash c1⟩ ∧
    lookupA p (setA p c1 st.workingTree) = some c1 := by
  have hne := processFileContent_ne_of_consecBlank rrm rrv C P c1 hpfc hcb
  exact ⟨hne, preCommit_single rrm rrv hash p P C st c1 [] ac hstaged hidx hpfc hne,
    lookupA_setA_self _ _ _, lookupA_setA_self _ _ _⟩

/-- Witness for C10: a `LineNumber "9"` pattern matches nothing in a
four-line file, yet the consecutive blank lines collapse and the file is
backed up and rewritten. -/
theorem C10_witness :
    "a\n\nb\n".toList ≠ "a\n\n\nb\n".toList ∧
    processPreCommit (fun _ _ => false) (fun _ => true) List.length
      ⟨[("f.txt".toList, [⟨[], .lineNumber, "9".toList⟩])], true⟩
      ⟨["f.txt".toList], [("f.txt".toList, "a\n\n\nb\n".toList)],
       [("f.txt".toList, "a\n\n\nb\n".toList)], []⟩ =
      .ok ⟨["f.txt".toList],
           setA "f.txt".toList "a\n\nb\n".toList
             [("f.txt".toList, "a\n\n\nb\n".toList)],
           setA "f.txt".toList "a\n\nb\n".toList
             [("f.txt".toList, "a\n\n\nb\n".toList)],
           setA "f.txt".toList
             ⟨"a\n\n\nb\n".toList, [], List.length "a\n\n\nb\n".toList,
              List.length "a\n\nb\n".toList⟩ []⟩ ∧
    lookupA "f.txt".toList (setA "f.txt".toList
      (⟨"a\n\n\nb\n".toList, [], List.length "a\n\n\nb\n".toList,
        List.length "a\n\nb\n".toList⟩ : BackupData) []) =
      some ⟨"a\n\n\nb\n".toList, [], List.length "a\n\n\nb\n".toList,
        List.length "a\n\nb\n".toList⟩ ∧
    lookupA "f.txt".toList (setA "f.txt".toList "a\n\nb\n".toList
      [("f.txt".toList, "a\n\n\nb\n".toList)]) = some "a\n\nb\n".toList :=
  C10_thm (fun _ _ => false) (fun _ => true) List.length
    "f.txt".toList [⟨[], .lineNumber, "9".toList⟩] "a\n\n\nb\n".toList
    ⟨["f.txt".toList], [("f.txt".toList, "a\n\n\nb\n".toList)],
     [("f.txt".toList, "a\n\n\nb\n".toList)], []⟩
    "a\n\nb\n".toList true rfl (by decide) rfl rfl

end SelIgnore

namespace SelIgnore

lemma linesAux_chars : ∀ (s acc : Str), ∀ l ∈ linesAux acc s, ∀ c ∈ l, c ∈ acc ∨ c ∈ s := by
  intro s
  induction s with
  | nil =>
    intro acc l hl c hc
    unfold linesAux at hl
    by_cases ha : acc = []
    · simp [ha] at hl
    · rw [if_neg ha] at hl
      simp only [List.mem_singleton] at hl
      subst hl
      exact Or.inl (List.mem_reverse.mp hc)
  | cons a rest ih =>
    intro acc l hl c hc
    unfold linesAux at hl
    by_cases hcnl : a = '\n'
    · rw [if_pos hcnl] at hl
      rcases List.mem_cons.mp hl with he | he
      · subst he
        exact Or.inl (stripCrRev_subset acc c hc)
      · rcases ih [] l he c hc with h | h
        · simp at h
        · exact Or.inr (by simp [h])
    · rw [if_neg hcnl] at hl
      rcases ih (a :: acc) l hl c hc with h | h
      · rcases List.mem_cons.mp h with he | he
        · exact Or.inr (by simp [he])
        · exact Or.inl he
      · exact Or.inr (by simp [h])

lemma rustLines_chars (s : Str) : ∀ l ∈ rustLines s, ∀ c ∈ l, c ∈ s := by
  intro l hl c hc
  rcases linesAux_chars s [] l hl c hc with h | h
  · simp at h
  · exact h

lemma linesAux_append_nl : ∀ (l acc s : Str), '\n' ∉ l →
    linesAux acc (l ++ '\n' :: s) = stripCrRev (l.reverse ++ acc) :: linesAux [] s := by
  intro l
  induction l with
  | nil =>
    intro acc s _
    show linesAux acc ('\n' :: s) = stripCrRev (([] : Str).reverse ++ acc) :: linesAux [] s
    rw [show (([] : Str).reverse ++ acc : Str) = acc from by simp]
    rfl
  | cons c l ih =>
    intro acc s hnl
    have hc : c ≠ '\n' := by
      intro he
      exact hnl (by simp [he])
    rw [List.cons_append]
    conv_lhs => rw [linesAux]
    rw [if_neg hc]
    rw [ih (c :: acc) s (fun hm => hnl (by simp [hm]))]
    have harg : l.reverse ++ (c :: acc) = (c :: l).reverse ++ acc := by
      simp
    rw [harg]

lemma stripCrRev_reverse (l : Str) (h : '\r' ∉ l) : stripCrRev l.reverse = l := by
  rcases hr : l.reverse with _ | ⟨a, t⟩
  · have : l = [] := by simpa using congrArg List.reverse hr
    simp [this, stripCrRev]
  · have ha : a ≠ '\r' := by
      intro he
      apply h
      rw [← List.reverse_reverse l, hr, he]
      simp
    rw [stripCrRev_other a t ha, ← hr, List.reverse_reverse]

lemma rustLines_append_nl (l s : Str) (hnl : '\n' ∉ l) (hcr : '\r' ∉ l) :
    rustLines (l ++ '\n' :: s) = l :: rustLines s := by
  unfold rustLines
  rw [linesAux_append_nl l [] s hnl]
  rw [List.append_nil, stripCrRev_reverse l hcr]

lemma linesAux_no_nl_eq : ∀ (l acc : Str), '\n' ∉ l →
    linesAux acc l = if acc = [] ∧ l = [] then [] else [acc.reverse ++ l] := by
  intro l
  induction l with
  | nil =>
    intro acc _
    unfold linesAux
    by_cases ha : acc = [] <;> simp [ha]
  | cons c l ih =>
    intro acc hnl
    have hc : c ≠ '\n' := fun he => hnl (by simp [he])
    unfold linesAux
    rw [if_neg hc, ih (c :: acc) (fun hm => hnl (by simp [hm]))]
    rw [if_neg (by simp)]
    rw [if_neg (by simp)]
    congr 1
    simp

lemma rustLines_no_nl_eq (l : Str) (hnl : '\n' ∉ l) (hne : l ≠ []) :
    rustLines l = [l] := by
  unfold rustLines
  rw [linesAux_no_nl_eq l [] hnl]
  simp [hne]

lemma joinNl_cons_cons (l l2 : Str) (t : List Str) :
    joinNl (l :: l2 :: t) = l ++ '\n' :: joinNl (l2 :: t) := rfl

lemma joinNl_eq_nil : ∀ (ls : List Str), joinNl ls = [] ↔ ls = [] ∨ ls = [[]] := by
  intro ls
  rcases ls with _ | ⟨l, _ | ⟨l2, t⟩⟩
  · simp [joinNl]
  · rw [show joinNl [l] = l from rfl]
    constructor
    · intro h; right; rw [h]
    · intro h
      rcases h with h | h
      · exact absurd h (by simp)
      · simpa using h
  · rw [joinNl_cons_cons]
    constructor
    · intro h
      have : '\n' ∈ ([] : Str) := by
        rw [← h]
        simp
      simp at this
    · intro h
      rcases h with h | h <;> simp at h

lemma rustLines_joinNl_append_nl : ∀ (ls : List Str), ls ≠ [] →
    (∀ l ∈ ls, '\n' ∉ l ∧ '\r' ∉ l) →
    rustLines (joinNl ls ++ ['\n']) = ls := by
  intro ls
  induction ls with
  | nil => intro h; exact absurd rfl h
  | cons l rest ih =>
    intro _ hp
    rcases rest with _ | ⟨l2, t⟩
    · rw [show joinNl [l] = l from rfl]
      rw [show (l ++ ['\n'] : Str) = l ++ '\n' :: [] from rfl]
      rw [rustLines_append_nl l [] (hp l (by simp)).1 (hp l (by simp)).2]
      rfl
    · rw [joinNl_cons_cons]
      rw [show ((l ++ '\n' :: joinNl (l2 :: t)) ++ ['\n'] : Str) =
        l ++ '\n' :: (joinNl (l2 :: t) ++ ['\n']) by simp]
      rw [rustLines_append_nl l _ (hp l (by simp)).1 (hp l (by simp)).2]
      rw [ih (by simp) (fun x hx => hp x (by simp [hx]))]

lemma rustLines_joinNl_last_ne : ∀ (ls : List Str), ls ≠ [] →
    (∀ l ∈ ls, '\n' ∉ l ∧ '\r' ∉ l) →
    (∀ last ∈ ls.getLast?, last ≠ []) →
    rustLines (joinNl ls) = ls := by
  intro ls
  induction ls with
  | nil => intro h; exact absurd rfl h
  | cons l rest ih =>
    intro _ hp hlast
    rcases rest with _ | ⟨l2, t⟩
    · rw [show joinNl [l] = l from rfl]
      exact rustLines_no_nl_eq l (hp l (by simp)).1 (hlast l (by simp [List.getLast?]))
    · rw [joinNl_cons_cons]
      rw [rustLines_append_nl l _ (hp l (by simp)).1 (hp l (by simp)).2]
      rw [ih (by simp) (fun x hx => hp x (by simp [hx]))
        (fun x hx => hlast x (by rw [List.getLast?_cons_cons]; exact hx))]

lemma joinNl_append_nil_elem : ∀ (cl : List Str), cl ≠ [] →
    joinNl (cl ++ [[]]) = joinNl cl ++ ['\n'] := by
  intro cl
  induction cl with
  | nil => intro h; exact absurd rfl h
  | cons l rest ih =>
    intro _
    rcases rest with _ | ⟨l2, t⟩
    · rfl
    · rw [show ((l :: l2 :: t : List Str) ++ [[]]) = l :: ((l2 :: t) ++ [[]]) from rfl]
      rw [show joinNl (l :: (l2 :: t ++ [[]])) = l ++ '\n' :: joinNl (l2 :: t ++ [[]]) from rfl]
      rw [ih (by simp)]
      rw [joinNl_cons_cons]
      simp

end SelIgnore

namespace SelIgnore

/-- No two adjacent whitespace-only lines. -/
def NoConsecBlank (ls : List Str) : Prop :=
  List.Chain' (fun a b => ¬(rustTrim a = [] ∧ rustTrim b = [])) ls

lemma collapseBlanks_chain : ∀ (ls : List Str) (b : Bool),
    NoConsecBlank (collapseBlanks ls b) ∧
    (b = true → ∀ l0 ∈ (collapseBlanks ls b).head?, rustTrim l0 ≠ []) := by
  intro ls
  induction ls with
  | nil =>
    intro b
    refine ⟨List.chain'_nil, ?_⟩
    intro _ l0 hl0
    simp [collapseBlanks] at hl0
  | cons l rest ih =>
    intro b
    by_cases hb : rustTrim l = []
    · cases b
      · rw [collapseBlanks_blank_false _ hb]
        refine ⟨List.chain'_cons'.mpr ⟨?_, (ih true).1⟩, ?_⟩
        · intro y hy
          intro hcon
          exact (ih true).2 rfl y hy hcon.2
        · intro hfalse
          exact absurd hfalse (by simp)
      · rw [collapseBlanks_blank_true _ hb]
        exact ⟨(ih true).1, fun _ => (ih true).2 rfl⟩
    · rw [collapseBlanks_nonblank _ b hb]
      refine ⟨List.chain'_cons'.mpr ⟨?_, (ih false).1⟩, ?_⟩
      · intro y _ hcon
        exact hb hcon.1
      · intro _ l0 hl0
        simp only [List.head?_cons, Option.mem_def, Option.some.injEq] at hl0
        subst hl0
        exact hb

lemma collapseBlanks_id : ∀ (ls : List Str) (b : Bool), NoConsecBlank ls →
    (b = true → ∀ l0 ∈ ls.head?, rustTrim l0 ≠ []) → collapseBlanks ls b = ls := by
  intro ls
  induction ls with
  | nil => intro b _ _; rfl
  | cons l rest ih =>
    intro b hch hhd
    obtain ⟨hrel, hrest⟩ := List.chain'_cons'.mp hch
    by_cases hb : rustTrim l = []
    · have hbf : b = false := by
        cases b
        · rfl
        · exact absurd hb (hhd rfl l (by simp))
      subst hbf
      rw [collapseBlanks_blank_false _ hb]
      rw [ih true hrest ?_]
      intro _ l0 hl0
      intro hl0b
      exact hrel l0 hl0 ⟨hb, hl0b⟩
    · rw [collapseBlanks_nonblank _ b hb]
      rw [ih false hrest (fun hfalse => absurd hfalse (by simp))]

lemma endsWithNl_false_of_no_nl (x : Str) (h : '\n' ∉ x) : endsWithNl x = false := by
  unfold endsWithNl
  rcases hx : x.getLast? with _ | c
  · rfl
  · have : c ∈ x := List.mem_of_mem_getLast? hx
    have : c ≠ '\n' := fun he => h (he ▸ this)
    simpa using this

lemma endsWithNl_concat (x : Str) : endsWithNl (x ++ ['\n']) = true := by
  unfold endsWithNl
  rw [List.getLast?_concat]
  simp

lemma endsWithNl_append_ne (x y : Str) (h : y ≠ []) :
    endsWithNl (x ++ y) = endsWithNl y := by
  unfold endsWithNl
  rw [List.getLast?_append_of_ne_nil _ h]

lemma endsWithNl_cons_ne (c : Char) (y : Str) (h : y ≠ []) :
    endsWithNl (c :: y) = endsWithNl y := by
  rcases y with _ | ⟨b, t⟩
  · exact absurd rfl h
  · exact endsWithNl_cons_cons c b t

lemma endsWithNl_joinNl_last : ∀ (ls : List Str) (last : Str),
    ls.getLast? = some last → last ≠ [] → '\n' ∉ last →
    endsWithNl (joinNl ls) = false := by
  intro ls
  induction ls with
  | nil => intro last h; simp at h
  | cons l rest ih =>
    intro last hl hne hnl
    rcases rest with _ | ⟨l2, t⟩
    · have : l = last := by simpa [List.getLast?] using hl
      subst this
      rw [show joinNl [l] = l from rfl]
      exact endsWithNl_false_of_no_nl l hnl
    · rw [joinNl_cons_cons]
      have hJ : joinNl (l2 :: t) ≠ [] := by
        intro hnil
        rcases (joinNl_eq_nil _).mp hnil with h | h
        · simp at h
        · rw [List.getLast?_cons_cons, h] at hl
          have : last = [] := by simpa [List.getLast?] using hl.symm
          exact hne this
      rw [endsWithNl_append_ne _ _ (by simp)]
      rw [endsWithNl_cons_ne _ _ hJ]
      rw [List.getLast?_cons_cons] at hl
      exact ih last hl hne hnl

end SelIgnore

namespace SelIgnore

lemma collectMatches_lb (f : Str → Nat → Except String Bool) :
    ∀ (ls : List Str) (i0 : Nat) (out : List Nat),
      collectMatches f ls i0 = .ok out → ∀ i ∈ out, i0 ≤ i := by
  intro ls
  induction ls with
  | nil =>
    intro i0 out h i hi
    simp [collectMatches] at h
    subst h
    simp at hi
  | cons x tl ih =>
    intro i0 out h i hi
    rw [collectMatches] at h
    rcases hf : f x (i0 + 1) with e | b
    · rw [hf] at h; simp at h
    · rw [hf] at h
      rcases hr : collectMatches f tl (i0 + 1) with e | rest
      · rw [hr] at h; simp at h
      · rw [hr] at h
        cases b with
        | false =>
          simp at h
          subst h
          have := ih (i0 + 1) rest hr i hi
          omega
        | true =>
          simp at h
          subst h
          rcases List.mem_cons.mp hi with he | he
          · omega
          · have := ih (i0 + 1) rest hr i he
            omega

lemma collectMatches_iff (f : Str → Nat → Except String Bool) :
    ∀ (ls : List Str) (i0 : Nat) (out : List Nat),
      collectMatches f ls i0 = .ok out →
      ∀ (j : Nat) (l : Str), ls[j]? = some l →
        ∃ b, f l (i0 + j + 1) = .ok b ∧ (b = true ↔ (i0 + j) ∈ out) := by
  intro ls
  induction ls with
  | nil => intro i0 out h j l hj; simp at hj
  | cons x tl ih =>
    intro i0 out h j l hj
    rw [collectMatches] at h
    rcases hf : f x (i0 + 1) with e | b
    · rw [hf] at h; simp at h
    · rw [hf] at h
      rcases hr : collectMatches f tl (i0 + 1) with e | rest
      · rw [hr] at h; simp at h
      · rw [hr] at h
        simp only [Except.ok.injEq] at h
        subst h
        cases j with
        | zero =>
          simp only [List.getElem?_cons_zero, Option.some.injEq] at hj
          subst hj
          refine ⟨b, by simpa using hf, ?_⟩
          cases b with
          | true => simp
          | false =>
            constructor
            · intro hfalse; exact absurd hfalse (by simp)
            · intro hmem
              have hmem2 : i0 + 0 ∈ rest := by simpa using hmem
              have := collectMatches_lb f tl (i0 + 1) rest hr (i0 + 0) hmem2
              omega
        | succ j0 =>
          simp only [List.getElem?_cons_succ] at hj
          obtain ⟨b2, hb2, hiff⟩ := ih (i0 + 1) rest hr j0 l hj
          refine ⟨b2, ?_, ?_⟩
          · rw [show i0 + (j0 + 1) + 1 = i0 + 1 + j0 + 1 from by omega]
            exact hb2
          · rw [show i0 + (j0 + 1) = i0 + 1 + j0 from by omega]
            cases b with
            | false => simpa using hiff
            | true =>
              constructor
              · intro hb
                exact List.mem_cons_of_mem _ (hiff.mp hb)
              · intro hmem
                rcases List.mem_cons.mp (by simpa using hmem) with he | he
                · exact absurd he (by omega)
                · exact hiff.mpr he

lemma collectMatches_nil_of (f : Str → Nat → Except String Bool) :
    ∀ (ls : List Str) (i0 : Nat), (∀ l ∈ ls, ∀ n, f l n = .ok false) →
      collectMatches f ls i0 = .ok [] := by
  intro ls
  induction ls with
  | nil => intro i0 _; rfl
  | cons x tl ih =>
    intro i0 hall
    rw [collectMatches]
    rw [hall x (by simp) (i0 + 1)]
    rw [ih (i0 + 1) (fun l hl n => hall l (by simp [hl]) n)]
    rfl

lemma matchesLineE_lineRegex_pos (rrm : Str → Str → Bool) (rrv : Str → Bool)
    (p : IgnorePattern) (ln : Str) (hk : p.patternType = PatternType.lineRegex)
    (n m : Nat) : matchesLineE rrm rrv p ln n = matchesLineE rrm rrv p ln m := by
  simp only [matchesLineE, hk]

lemma ignoredIdxAll_elim (rrm : Str → Str → Bool) (rrv : Str → Bool) :
    ∀ (P : List IgnorePattern) (lines : List Str) (content : Str) (igs : List Nat),
      ignoredIdxAll rrm rrv P lines content = .ok igs →
      ∀ p ∈ P, ∃ out, patternIgnoredIdx rrm rrv p lines content = .ok out ∧
        ∀ i ∈ out, i ∈ igs := by
  intro P
  induction P with
  | nil => intro lines content igs h p hp; simp at hp
  | cons q tl ih =>
    intro lines content igs h p hp
    rw [ignoredIdxAll] at h
    rcases hq : patternIgnoredIdx rrm rrv q lines content with e | oq
    · rw [hq] at h; simp at h
    · rw [hq] at h
      rcases hr : ignoredIdxAll rrm rrv tl lines content with e | rest
      · rw [hr] at h; simp at h
      · rw [hr] at h
        simp only [Except.ok.injEq] at h
        subst h
        rcases List.mem_cons.mp hp with he | he
        · subst he
          exact ⟨oq, hq, fun i hi => List.mem_append.mpr (Or.inl hi)⟩
        · obtain ⟨out, hout, hsub⟩ := ih lines content rest hr p he
          exact ⟨out, hout, fun i hi => List.mem_append.mpr (Or.inr (hsub i hi))⟩

lemma ignoredIdxAll_nil (rrm : Str → Str → Bool) (rrv : Str → Bool) :
    ∀ (P : List IgnorePattern) (lines : List Str) (content : Str),
      (∀ p ∈ P, patternIgnoredIdx rrm rrv p lines content = .ok []) →
      ignoredIdxAll rrm rrv P lines content = .ok [] := by
  intro P
  induction P with
  | nil => intro lines content _; rfl
  | cons q tl ih =>
    intro lines content hall
    rw [ignoredIdxAll]
    rw [hall q (by simp)]
    rw [ih lines content (fun p hp => hall p (by simp [hp]))]
    rfl

lemma blockRangeIdx_mem (n : Nat) (se : Nat × Nat) (i : Nat)
    (h1 : se.1 ≤ i + 1) (h2 : i + 1 ≤ se.2) (h3 : i < n) :
    i ∈ blockRangeIdx n se := by
  unfold blockRangeIdx
  refine List.mem_map.mpr ⟨i + 1, List.mem_filter.mpr ⟨?_, ?_⟩, by omega⟩
  · exact List.mem_range'_1.mpr ⟨h1, by omega⟩
  · simp only [Bool.and_eq_true, decide_eq_true_eq]
    omega

lemma enumFrom_fst_ge : ∀ (ls : List Str) (n : Nat) (x : Nat × Str),
    x ∈ List.enumFrom n ls → n ≤ x.1 := by
  intro ls
  induction ls with
  | nil => intro n x hx; simp at hx
  | cons l tl ih =>
    intro n x hx
    rw [List.enumFrom_cons] at hx
    rcases List.mem_cons.mp hx with he | he
    · subst he; exact Nat.le_refl n
    · exact Nat.le_of_succ_le (ih (n + 1) x he)

lemma pairwise_fst_lt_enumFrom : ∀ (ls : List Str) (n : Nat),
    List.Pairwise (fun a b : Nat × Str => a.1 < b.1) (List.enumFrom n ls) := by
  intro ls
  induction ls with
  | nil => intro n; simp
  | cons l tl ih =>
    intro n
    rw [List.enumFrom_cons]
    refine List.Pairwise.cons ?_ (ih (n + 1))
    intro y hy
    exact Nat.lt_of_lt_of_le (Nat.lt_succ_self n) (enumFrom_fst_ge tl (n + 1) y hy)

lemma pairwise_fst_lt_enum (ls : List Str) :
    List.Pairwise (fun a b : Nat × Str => a.1 < b.1) ls.enum :=
  pairwise_fst_lt_enumFrom ls 0

lemma mem_kept_elim (lines : List Str) (ignored : List Nat) (l : Str)
    (h : l ∈ (lines.enum.filter (fun il => !(ignored.contains il.1))).map Prod.snd) :
    ∃ i, lines[i]? = some l ∧ ¬ i ∈ ignored := by
  obtain ⟨il, hil, he⟩ := List.mem_map.mp h
  obtain ⟨hmem, hf⟩ := List.mem_filter.mp hil
  refine ⟨il.1, ?_, ?_⟩
  · have hg := List.mem_enum_iff_getElem?.mp hmem
    rw [he] at hg
    exact hg
  · simpa using hf

lemma kept_sublist (lines : List Str) (ignored : List Nat) :
    ((lines.enum.filter (fun il => !(ignored.contains il.1))).map Prod.snd).Sublist lines := by
  have h2 := List.Sublist.map Prod.snd (List.filter_sublist
    (l := lines.enum) (p := fun il => !(ignored.contains il.1)))
  rw [List.enum_map_snd] at h2
  exact h2

lemma pairwise_kept (lines : List Str) (ignored : List Nat)
    (Q : Str → Str → Prop)
    (hQ : ∀ i j a b, i < j → lines[i]? = some a → lines[j]? = some b →
        ¬ i ∈ ignored → ¬ j ∈ ignored → Q a b) :
    List.Pairwise Q
      ((lines.enum.filter (fun il => !(ignored.contains il.1))).map Prod.snd) := by
  rw [List.pairwise_map]
  have hp : List.Pairwise (fun a b : Nat × Str => a.1 < b.1)
      (lines.enum.filter (fun il => !(ignored.contains il.1))) :=
    List.Pairwise.sublist (List.filter_sublist _) (pairwise_fst_lt_enum lines)
  refine List.Pairwise.imp_of_mem ?_ hp
  intro x y hx hy hlt
  obtain ⟨hxe, hxf⟩ := List.mem_filter.mp hx
  obtain ⟨hye, hyf⟩ := List.mem_filter.mp hy
  exact hQ x.1 y.1 x.2 y.2 hlt (List.mem_enum_iff_getElem?.mp hxe)
    (List.mem_enum_iff_getElem?.mp hye) (by simpa using hxf) (by simpa using hyf)

end SelIgnore

namespace SelIgnore

lemma mem_of_getElemQ {α : Type} {l : List α} {i : Nat} {a : α}
    (h : l[i]? = some a) : a ∈ l := by
  obtain ⟨hlt, hg⟩ := List.getElem?_eq_some.mp h
  exact hg ▸ List.getElem_mem hlt

/-- Every line containing the block start text is either covered by one of
the scanner's ranges, or no later line contains the block end text. -/
lemma blockScan_cover (sp ep : Str) :
    ∀ (off : Nat) (ls : List Str) (i : Nat) (l : Str),
      ls[i]? = some l → containsSub l sp = true →
      (∃ se ∈ blockScan sp ep off ls, se.1 ≤ off + i + 1 ∧ off + i + 1 ≤ se.2) ∨
      (∀ j lj, i < j → ls[j]? = some lj → containsSub lj ep = false) := by
  intro off0 ls0
  induction off0, ls0 using blockScan.induct sp ep with
  | case1 off =>
    intro i l hi _
    simp at hi
  | case2 off l rest hsp k hk ih =>
    intro i li hi hli
    by_cases hik : i ≤ k + 1
    · left
      refine ⟨(off + 1, off + k + 2), ?_, by omega, by omega⟩
      rw [blockScan, if_pos hsp, hk]
      exact List.mem_cons_self _ _
    · have hik2 : k + 2 ≤ i := by omega
      have hrest : rest[i - 1]? = some li := by
        rcases i with _ | i0
        · omega
        · simpa using hi
      have hdrop : (rest.drop (k + 1))[i - k - 2]? = some li := by
        rw [List.getElem?_drop]
        rw [show k + 1 + (i - k - 2) = i - 1 from by omega]
        exact hrest
      rcases ih (i - k - 2) li hdrop hli with ⟨se, hmem, h1, h2⟩ | hno
      · left
        refine ⟨se, ?_, by omega, by omega⟩
        rw [blockScan, if_pos hsp, hk]
        exact List.mem_cons_of_mem _ hmem
      · right
        intro j lj hij hj
        have hrj : rest[j - 1]? = some lj := by
          rcases j with _ | j0
          · omega
          · simpa using hj
        have hdj : (rest.drop (k + 1))[j - k - 2]? = some lj := by
          rw [List.getElem?_drop]
          rw [show k + 1 + (j - k - 2) = j - 1 from by omega]
          exact hrj
        exact hno (j - k - 2) lj (by omega) hdj
  | case3 off l rest hsp hnone ih =>
    intro i li hi hli
    right
    intro j lj hij hj
    have hall : ∀ x ∈ rest, containsSub x ep = false :=
      List.findIdx?_eq_none_iff.mp hnone
    rcases j with _ | j0
    · omega
    · have hm : lj ∈ rest := mem_of_getElemQ (by simpa using hj)
      exact hall lj hm
  | case4 off l rest hsp ih =>
    intro i li hi hli
    rcases i with _ | i0
    · simp only [List.getElem?_cons_zero, Option.some.injEq] at hi
      subst hi
      exact absurd hli hsp
    · have hrest : rest[i0]? = some li := by simpa using hi
      rcases ih i0 li hrest hli with ⟨se, hmem, h1, h2⟩ | hno
      · left
        refine ⟨se, ?_, by omega, by omega⟩
        rw [blockScan, if_neg hsp]
        exact hmem
      · right
        intro j lj hij hj
        rcases j with _ | j0
        · omega
        · exact hno j0 lj (by omega) (by simpa using hj)

/-- If no line containing the start text is followed by a line containing
the end text, the scanner finds no block. -/
lemma blockScan_nil_of_pairwise (sp ep : Str) :
    ∀ (off : Nat) (ls : List Str),
      List.Pairwise
        (fun a b => ¬(containsSub a sp = true ∧ containsSub b ep = true)) ls →
      blockScan sp ep off ls = [] := by
  intro off0 ls0
  induction off0, ls0 using blockScan.induct sp ep with
  | case1 off => intro _; simp [blockScan]
  | case2 off l rest hsp k hk ih =>
    intro hpw
    obtain ⟨x, hx, hpx, _⟩ := findIdxQ_spec hk
    have hxm : x ∈ rest := mem_of_getElemQ hx
    exact absurd ⟨hsp, hpx⟩ ((List.pairwise_cons.mp hpw).1 x hxm)
  | case3 off l rest hsp hnone ih =>
    intro hpw
    rw [blockScan, if_pos hsp, hnone]
    exact ih (List.pairwise_cons.mp hpw).2
  | case4 off l rest hsp ih =>
    intro hpw
    rw [blockScan, if_neg hsp]
    exact ih (List.pairwise_cons.mp hpw).2

end SelIgnore

namespace SelIgnore

/-- A line-based (non-block) content pattern that matched no surviving line
in the first pass contributes nothing in a second pass over the survivors. -/
lemma patternIgnoredIdx_lineRegex_nil (rrm : Str → Str → Bool) (rrv : Str → Bool)
    (p : IgnorePattern) (lines1 lines2 : List Str) (C c2 : Str) (out : List Nat)
    (hk : p.patternType = PatternType.lineRegex)
    (h1 : patternIgnoredIdx rrm rrv p lines1 C = .ok out)
    (hsub : ∀ l ∈ lines2, ∃ i, lines1[i]? = some l ∧ ¬ i ∈ out) :
    patternIgnoredIdx rrm rrv p lines2 c2 = .ok [] := by
  simp only [patternIgnoredIdx, hk] at h1 ⊢
  refine collectMatches_nil_of _ lines2 0 ?_
  intro l hl n
  obtain ⟨i, hgi, hni⟩ := hsub l hl
  obtain ⟨b, hb, hiff⟩ := collectMatches_iff _ lines1 0 out h1 i l hgi
  have hbf : b = false := by
    cases b
    · rfl
    · exact absurd (hiff.mp rfl) (by simpa using hni)
  subst hbf
  rw [matchesLineE_lineRegex_pos rrm rrv p l hk n (0 + i + 1)]
  exact hb

/-- A block pattern finds no block in a line list in which no line holding
the start text precedes a line holding the end text. -/
lemma patternIgnoredIdx_block_nil (rrm : Str → Str → Bool) (rrv : Str → Bool)
    (p : IgnorePattern) (lines2 : List Str) (C c2 : Str) (out : List Nat)
    (hk : p.patternType = PatternType.blockStartEnd)
    (h1 : patternIgnoredIdx rrm rrv p (rustLines C) C = .ok out)
    (hpw : List.Pairwise
      (fun a b =>
        ¬(containsSub a (rustTrim ((splitTripleBar p.specification).getD 0 [])) = true ∧
          containsSub b (rustTrim ((splitTripleBar p.specification).getD 1 [])) = true))
      (rustLines c2)) :
    patternIgnoredIdx rrm rrv p lines2 c2 = .ok [] := by
  simp only [patternIgnoredIdx, hk, getBlockRange] at h1 ⊢
  by_cases hp2 : (splitTripleBar p.specification).length = 2
  · rw [if_pos hp2]
    rw [blockScan_nil_of_pairwise _ _ 0 _ hpw]
    rfl
  · rw [if_neg hp2] at h1
    simp at h1

/-- The second pass of `process_file_content` over its own output: once the
surviving lines are known to re-split to a prefix of the collapsed kept
lines, match nothing, and re-join to the same content, the pass returns the
content unchanged with an empty ignored map. -/
lemma processFileContent_pass2
    (rrm : Str → Str → Bool) (rrv : Str → Bool) (P : List IgnorePattern)
    (C c1 : Str) (ignored1 : List Nat) (lines2 : List Str)
    (hkinds : ∀ p ∈ P, p.patternType = PatternType.lineRegex ∨
      p.patternType = PatternType.blockStartEnd)
    (hig : ignoredIdxAll rrm rrv P (rustLines C) C = .ok ignored1)
    (hlines2 : rustLines c1 = lines2)
    (hpref : lines2 <+:
      collapseBlanks (((rustLines C).enum.filter
        (fun il => !(ignored1.contains il.1))).map Prod.snd) false)
    (hfinal : (if endsWithNl c1 && !(decide (joinNl lines2 = [])) then joinNl lines2 ++ ['\n']
               else joinNl lines2) = c1) :
    processFileContent rrm rrv c1 P = .ok (c1, []) := by
  have hchain := (collapseBlanks_chain (((rustLines C).enum.filter
      (fun il => !(ignored1.contains il.1))).map Prod.snd) false).1
  have hnc2 : NoConsecBlank lines2 := List.Chain'.prefix hchain hpref
  have hsubk : lines2.Sublist (((rustLines C).enum.filter
      (fun il => !(ignored1.contains il.1))).map Prod.snd) :=
    List.Sublist.trans hpref.sublist (collapseBlanks_sublist _ false)
  have hig2 : ignoredIdxAll rrm rrv P lines2 c1 = .ok [] := by
    apply ignoredIdxAll_nil
    intro p hp
    obtain ⟨out, hout, hsubout⟩ :=
      ignoredIdxAll_elim rrm rrv P (rustLines C) C ignored1 hig p hp
    rcases hkinds p hp with hkr | hkb
    · apply patternIgnoredIdx_lineRegex_nil rrm rrv p (rustLines C) lines2 C c1 out hkr hout
      intro l hl
      obtain ⟨i, hgi, hni⟩ := mem_kept_elim (rustLines C) ignored1 l (hsubk.subset hl)
      exact ⟨i, hgi, fun hmem => hni (hsubout i hmem)⟩
    · apply patternIgnoredIdx_block_nil rrm rrv p lines2 C c1 out hkb hout
      rw [hlines2]
      refine List.Pairwise.sublist hsubk ?_
      apply pairwise_kept
      intro i j a b hij hga hgb hia hja
      intro hcon
      obtain ⟨hasp, hbep⟩ := hcon
      simp only [patternIgnoredIdx, hkb, getBlockRange] at hout
      by_cases hp2 : (splitTripleBar p.specification).length = 2
      · rw [if_pos hp2] at hout
        have hout2 : (blockScan (rustTrim ((splitTripleBar p.specification).getD 0 []))
            (rustTrim ((splitTripleBar p.specification).getD 1 [])) 0 (rustLines C)).flatMap
            (blockRangeIdx (rustLines C).length) = out := Except.ok.inj hout
        rcases blockScan_cover (rustTrim ((splitTripleBar p.specification).getD 0 []))
            (rustTrim ((splitTripleBar p.specification).getD 1 []))
            0 (rustLines C) i a hga hasp with ⟨se, hse, hs1, hs2⟩ | hno
        · have hilt : i < (rustLines C).length := (List.getElem?_eq_some.mp hga).1
          have hiin : i ∈ out := by
            rw [← hout2]
            exact List.mem_flatMap.mpr ⟨se, hse,
              blockRangeIdx_mem (rustLines C).length se i (by omega) (by omega) hilt⟩
          exact hia (hsubout i hiin)
        · have hf := hno j b hij hgb
          rw [hf] at hbep
          exact absurd hbep (by simp)
      · rw [if_neg hp2] at hout
        simp at hout
  have hkept2 : ((lines2.enum.filter (fun il => !(([] : List Nat).contains il.1))).map Prod.snd)
      = lines2 := by
    have hf : (lines2.enum.filter (fun il => !(([] : List Nat).contains il.1)))
        = lines2.enum := by
      apply List.filter_eq_self.mpr
      intro a _
      simp
    rw [hf, List.enum_map_snd]
  have hmap2 : (lines2.enum.filter (fun il => (([] : List Nat)).contains il.1)) = [] := by
    apply List.filter_eq_nil_iff.mpr
    intro a _
    simp
  have hcol2 : collapseBlanks lines2 false = lines2 :=
    collapseBlanks_id lines2 false hnc2 (fun hf => absurd hf (by simp))
  simp only [processFileContent, hlines2, hig2]
  rw [hkept2, hcol2, hmap2, hfinal]

end SelIgnore

namespace SelIgnore

/-- Case analysis on how the cleaned output re-splits into lines, reducing
the second transformer pass to `processFileContent_pass2`. -/
lemma pass2_cases (rrm : Str → Str → Bool) (rrv : Str → Bool)
    (P : List IgnorePattern) (C c1 : Str) (ignored1 : List Nat) (cl1 : List Str)
    (hkinds : ∀ p ∈ P, p.patternType = PatternType.lineRegex ∨
      p.patternType = PatternType.blockStartEnd)
    (hig : ignoredIdxAll rrm rrv P (rustLines C) C = .ok ignored1)
    (hcl : collapseBlanks (((rustLines C).enum.filter
      (fun il => !(ignored1.contains il.1))).map Prod.snd) false = cl1)
    (hprops : ∀ l ∈ cl1, '\n' ∉ l ∧ '\r' ∉ l)
    (hc1 : (if endsWithNl C && !(decide (joinNl cl1 = []))
            then joinNl cl1 ++ ['\n'] else joinNl cl1) = c1) :
    processFileContent rrm rrv c1 P = .ok (c1, []) := by
  have hchain : NoConsecBlank cl1 := hcl ▸ (collapseBlanks_chain _ false).1
  by_cases hj1 : joinNl cl1 = []
  · have hc1n : c1 = [] := by
      rw [← hc1, hj1]
      simp
    apply processFileContent_pass2 rrm rrv P C c1 ignored1 [] hkinds hig
    · rw [hc1n]; rfl
    · exact List.nil_prefix
    · rw [hc1n]; decide
  · have hclne : cl1 ≠ [] := fun h => hj1 ((joinNl_eq_nil _).mpr (Or.inl h))
    by_cases hend : endsWithNl C = true
    · have hc1e : c1 = joinNl cl1 ++ ['\n'] := by
        rw [← hc1, if_pos (by simp [hend, hj1])]
      apply processFileContent_pass2 rrm rrv P C c1 ignored1 cl1 hkinds hig
      · rw [hc1e]
        exact rustLines_joinNl_append_nl cl1 hclne hprops
      · rw [hcl]
      · have hcond : (endsWithNl c1 && !(decide (joinNl cl1 = []))) = true := by
          rw [hc1e]
          simp [endsWithNl_concat, hj1]
        rw [if_pos hcond]
        exact hc1e.symm
    · have hendf : endsWithNl C = false := by
        cases he : endsWithNl C
        · rfl
        · exact absurd he hend
      have hc1e : c1 = joinNl cl1 := by
        rw [← hc1, if_neg (by simp [hendf])]
      rcases hlast : cl1.getLast? with _ | last
      · exact absurd (List.getLast?_eq_none_iff.mp hlast) hclne
      · have hlastmem : last ∈ cl1 := List.mem_of_mem_getLast? (by rw [hlast]; rfl)
        obtain ⟨hlnl, hlcr⟩ := hprops last hlastmem
        by_cases hle : last = []
        · subst hle
          have hspl : cl1 = cl1.dropLast ++ [([] : Str)] := by
            have h2 := List.dropLast_append_getLast hclne
            have h3 : cl1.getLast hclne = [] := by
              have h4 := List.getLast?_eq_getLast cl1 hclne
              rw [hlast] at h4
              exact (Option.some.inj h4).symm
            rw [h3] at h2
            exact h2.symm
          have hdne : cl1.dropLast ≠ [] := by
            intro hd0
            apply hj1
            rw [hspl, hd0]
            rfl
          have hc1f : c1 = joinNl cl1.dropLast ++ ['\n'] := by
            rw [hc1e]
            conv_lhs => rw [hspl]
            exact joinNl_append_nil_elem _ hdne
          have hdprops : ∀ l ∈ cl1.dropLast, '\n' ∉ l ∧ '\r' ∉ l :=
            fun l hl => hprops l ((List.dropLast_prefix cl1).sublist.subset hl)
          apply processFileContent_pass2 rrm rrv P C c1 ignored1 cl1.dropLast hkinds hig
          · rw [hc1f]
            exact rustLines_joinNl_append_nl _ hdne hdprops
          · rw [hcl]
            exact List.dropLast_prefix cl1
          · have hjne : joinNl cl1.dropLast ≠ [] := by
              intro hj2
              rcases (joinNl_eq_nil _).mp hj2 with h | h
              · exact hdne h
              · have hcl2 : cl1 = [[], ([] : Str)] := by
                  rw [hspl, h]
                  rfl
                have h5 := (List.chain'_cons.mp (hcl2 ▸ hchain)).1
                exact h5 ⟨rfl, rfl⟩
            have hcond : (endsWithNl c1 && !(decide (joinNl cl1.dropLast = []))) = true := by
              rw [hc1f]
              simp [endsWithNl_concat, hjne]
            rw [if_pos hcond]
            exact hc1f.symm
        · apply processFileContent_pass2 rrm rrv P C c1 ignored1 cl1 hkinds hig
          · rw [hc1e]
            apply rustLines_joinNl_last_ne cl1 hclne hprops
            intro x hx
            rw [hlast] at hx
            have hxe : last = x := by simpa using hx
            rw [← hxe]
            exact hle
          · rw [hcl]
          · have hcond : (endsWithNl c1 && !(decide (joinNl cl1 = []))) = false := by
              rw [hc1e, endsWithNl_joinNl_last cl1 last hlast hle hlnl]
              rfl
            rw [if_neg (by simp [hcond])]
            exact hc1e.symm

end SelIgnore

namespace SelIgnore

/-- C6: counterexample to idempotence as claimed — with the single pattern
`LineNumber "1"` on `"A\nB\n"` the first pass cleans to `"B\n"`, but a
second pass over `"B\n"` cleans to `""`: position-based patterns re-match
after the removed lines shift every following line up. -/
theorem C6_cex :
    processFileContent (fun _ _ => false) (fun _ => true) "A\nB\n".toList
        [⟨"p".toList, PatternType.lineNumber, "1".toList⟩] =
      .ok ("B\n".toList, [(0, "A".toList)]) ∧
    processFileContent (fun _ _ => false) (fun _ => true) "B\n".toList
        [⟨"p".toList, PatternType.lineNumber, "1".toList⟩] =
      .ok (([] : Str), [(0, "B".toList)]) ∧
    ([] : Str) ≠ "B\n".toList := by
  refine ⟨rfl, rfl, by decide⟩

/-- C6 (amended): the transformer is idempotent for content-based patterns.
If every pattern is a `LineRegex` or a `BlockStartEnd` (their matching
depends only on the line text, never on its position) and the content holds
no carriage return, then a successful pass `C ↦ c1` is final: a second pass
over `c1` with the same patterns returns `c1` unchanged and ignores no
line. -/
theorem C6_thm (rrm : Str → Str → Bool) (rrv : Str → Bool)
    (P : List IgnorePattern) (C c1 : Str) (m1 : List (Nat × Str))
    (hkinds : ∀ p ∈ P, p.patternType = PatternType.lineRegex ∨
      p.patternType = PatternType.blockStartEnd)
    (hcr : '\r' ∉ C)
    (h1 : processFileContent rrm rrv C P = .ok (c1, m1)) :
    processFileContent rrm rrv c1 P = .ok (c1, []) := by
  simp only [processFileContent] at h1
  rcases hig : ignoredIdxAll rrm rrv P (rustLines C) C with e | ignored1
  · rw [hig] at h1
    simp at h1
  · rw [hig] at h1
    simp only [Except.ok.injEq, Prod.mk.injEq] at h1
    obtain ⟨hc1, hm1⟩ := h1
    apply pass2_cases rrm rrv P C c1 ignored1
      (collapseBlanks (((rustLines C).enum.filter
        (fun il => !(ignored1.contains il.1))).map Prod.snd) false)
      hkinds hig rfl ?_ hc1
    intro l hl
    have hlk := (collapseBlanks_sublist _ false).subset hl
    have hll := (kept_sublist (rustLines C) ignored1).subset hlk
    exact ⟨rustLines_no_nl C l hll, fun hc => hcr (rustLines_chars C l hll '\r' hc)⟩

/-- Witness for C6: the pattern `/SECRET/` (matched as a substring by the
chosen regex oracle) on `"A\nSECRET\nB\n"` cleans to `"A\nB\n"`, and the
second pass leaves `"A\nB\n"` unchanged with nothing ignored. -/
theorem C6_witness :
    processFileContent (fun pat ln => containsSub ln pat) (fun _ => true)
        "A\nB\n".toList [⟨"p".toList, PatternType.lineRegex, "/SECRET/".toList⟩] =
      .ok ("A\nB\n".toList, []) :=
  C6_thm (fun pat ln => containsSub ln pat) (fun _ => true)
    [⟨"p".toList, PatternType.lineRegex, "/SECRET/".toList⟩]
    "A\nSECRET\nB\n".toList "A\nB\n".toList [(1, "SECRET".toList)]
    (by decide) (by decide) rfl

end SelIgnore
